import Mathlib

/-!
# Wenshi (`app.go`): content validation and the `.wen` envelope codec

A shallow embedding of `ValidateTxtFile`, `ParseWenFile` and `SerializeWenFile`.

Modelling conventions.

* A Go `string` is taken to hold valid UTF-8 and is a `List Char`, one `Char` per rune
  (strings with invalid byte sequences are outside the model); error messages, which
  the program only builds and never inspects, are `String`s.
* A Go result pair `(v, err)` is a Lean pair whose second component is an
  `Option String`: `none` is the `nil` error, `some m` an error whose text is `m`.
* Standard-library services whose tables or algorithms are not part of the
  repository are explicit inputs: the Unicode punctuation table above Latin-1 and
  the RFC 3339 recogniser (`Lib`), the clock reading (`now`) and the XML decoder
  (`Decoder`).  Concrete instances (`goLib`, `xmlUnmarshal`) are supplied as well and
  are used wherever a statement is evaluated on a concrete input.
* `float64(cjkChars) / float64(totalChars) < 0.5` is computed over `ℚ`; the two agree
  whenever the counters are below `2^53`.
-/

namespace Wenshi

/-! ## Library primitives -/

/-- Go `unicode.IsSpace`: the Latin-1 switch followed by the `White_Space` table. -/
def IsSpace (r : Char) : Bool :=
  let n := r.toNat
  if n ≤ 0xFF then
    n == 0x09 || n == 0x0A || n == 0x0B || n == 0x0C || n == 0x0D || n == 0x20 ||
      n == 0x85 || n == 0xA0
  else
    n == 0x1680 || (0x2000 ≤ n && n ≤ 0x200A) || n == 0x2028 || n == 0x2029 ||
      n == 0x202F || n == 0x205F || n == 0x3000

/-- Latin-1 code points whose `properties` entry carries `pP` (category P). -/
def latin1Punct (n : Nat) : Bool :=
  (0x21 ≤ n && n ≤ 0x23) || (0x25 ≤ n && n ≤ 0x2A) || (0x2C ≤ n && n ≤ 0x2F) ||
    n == 0x3A || n == 0x3B || n == 0x3F || n == 0x40 || (0x5B ≤ n && n ≤ 0x5D) ||
    n == 0x5F || n == 0x7B || n == 0x7D || n == 0xA1 || n == 0xA7 || n == 0xAB ||
    n == 0xB6 || n == 0xB7 || n == 0xBB || n == 0xBF

/-- Standard-library tables and recognisers the program relies on. -/
structure Lib where
  /-- Membership in the Unicode range table `unicode.Punct` (consulted above Latin-1). -/
  Punct : Char → Bool
  /-- Whether `time.Parse(time.RFC3339, s)` returns a nil error. -/
  ParseTime : List Char → Bool

/-- Go `unicode.IsPunct`: the Latin-1 property array, then the range table. -/
def IsPunct (L : Lib) (r : Char) : Bool :=
  if r.toNat ≤ 0xFF then latin1Punct r.toNat else L.Punct r

/-- Go `strings.TrimSpace`: drop leading and trailing white space. -/
def TrimSpace (s : List Char) : List Char :=
  (s.dropWhile IsSpace).rdropWhile IsSpace

/-- Go `strings.Contains`. -/
def Contains : List Char → List Char → Bool
  | [], sub => sub.isEmpty
  | c :: cs, sub => sub.isPrefixOf (c :: cs) || Contains cs sub

/-- Worker of `ReplaceAll`: the counter is the number of input characters still
covered by the occurrence of `old` that was just replaced. -/
def ReplaceAllAux (old new : List Char) : Nat → List Char → List Char
  | 0, [] => if old.isEmpty then new else []
  | _ + 1, [] => []
  | n + 1, _ :: cs => ReplaceAllAux old new n cs
  | 0, c :: cs =>
    if old.isEmpty then new ++ c :: ReplaceAllAux old new 0 cs
    else if old.isPrefixOf (c :: cs) then new ++ ReplaceAllAux old new (old.length - 1) cs
    else c :: ReplaceAllAux old new 0 cs

/-- Go `strings.ReplaceAll`: every non-overlapping occurrence of `old`, leftmost first,
becomes `new`. -/
def ReplaceAll (s old new : List Char) : List Char :=
  ReplaceAllAux old new 0 s

/-- Length of the match of the regular expression `\{\{[^}]*\}\}` anchored at the head
of the input, when there is one.  The class `[^}]` cannot step over a closing brace, so
the only candidate is the maximal brace-free run. -/
def markerLen : List Char → Option Nat
  | a :: b :: rest =>
    if a = '\x7b' ∧ b = '\x7b' then
      match rest.dropWhile (fun ch => ch != '\x7d') with
      | x :: y :: _ =>
        if x = '\x7d' ∧ y = '\x7d' then
          some ((rest.takeWhile (fun ch => ch != '\x7d')).length + 4)
        else none
      | _ => none
    else none
  | _ => none

/-- Worker of `stripMarkers`; the counter is the number of characters of the current
match that remain to be skipped. -/
def stripAux : Nat → List Char → List Char
  | _, [] => []
  | n + 1, _ :: cs => stripAux n cs
  | 0, c :: cs =>
    match markerLen (c :: cs) with
    | some k => stripAux (k - 1) cs
    | none => c :: stripAux 0 cs

/-- The call `annotationRegex.ReplaceAllString(content, "")`: leftmost non-overlapping
matches of the marker pattern are deleted. -/
def stripMarkers (s : List Char) : List Char :=
  stripAux 0 s

/-! ## Data model -/

/-- Parsed `.wen` file. -/
structure WenFileData where
  Ver : List Char
  CreatedAt : List Char
  ModifiedAt : List Char
  Content : List Char
  deriving DecidableEq, Repr

/-- Outcome of content validation. -/
structure ValidationResult where
  IsValid : Bool
  ErrorMessage : String
  deriving DecidableEq, Repr

/-- Decoding target of `xml.Unmarshal`. -/
structure wenshiXML where
  Ver : List Char
  CreatedAt : List Char
  ModifiedAt : List Char
  Content : List Char
  deriving DecidableEq, Repr

/-! ## ValidateTxtFile -/

/-- Rune predicate `isCJK`. -/
def isCJK (r : Char) : Bool :=
  (r.toNat ≥ 0x4E00 && r.toNat ≤ 0x9FFF) ||
    (r.toNat ≥ 0x3400 && r.toNat ≤ 0x4DBF) ||
    (r.toNat ≥ 0x20000 && r.toNat ≤ 0x2A6DF) ||
    (r.toNat ≥ 0xF900 && r.toNat ≤ 0xFAFF)

/-- One iteration of the counting loop on the pair `(totalChars, cjkChars)`. -/
def countStep (L : Lib) (acc : Nat × Nat) (r : Char) : Nat × Nat :=
  if IsSpace r || IsPunct L r then acc
  else (acc.1 + 1, if isCJK r then acc.2 + 1 else acc.2)

/-- The loop `for _, r := range cleanText`, started with both counters at zero. -/
def countChars (L : Lib) (cleanText : List Char) : Nat × Nat :=
  cleanText.foldl (countStep L) (0, 0)

/-- The method `ValidateTxtFile`. -/
def ValidateTxtFile (L : Lib) (content : List Char) : ValidationResult :=
  if TrimSpace content = [] then
    { IsValid := false, ErrorMessage := "File is empty" }
  else
    let cleanText := stripMarkers content
    if Contains cleanText ['<'] || Contains cleanText ['>'] then
      { IsValid := false,
        ErrorMessage := "File contains XML tags (< or >) which are not allowed in .txt files" }
    else
      let counts := countChars L cleanText
      let totalChars := counts.1
      let cjkChars := counts.2
      if totalChars = 0 then
        { IsValid := false, ErrorMessage := "File contains no text characters" }
      else
        let percentage : ℚ := (cjkChars : ℚ) / (totalChars : ℚ)
        if percentage < 1 / 2 then
          { IsValid := false, ErrorMessage := "File must contain at least 50% CJK characters" }
        else
          { IsValid := true, ErrorMessage := "" }

/-! ## SerializeWenFile -/

/-- The closure `escapeAttr`. -/
def escapeAttr (s : List Char) : List Char :=
  let s := ReplaceAll s "&".toList "&amp;".toList
  let s := ReplaceAll s "<".toList "&lt;".toList
  let s := ReplaceAll s ">".toList "&gt;".toList
  let s := ReplaceAll s "\x22".toList "&quot;".toList
  s

/-- The three newline replacements applied to the content (to LF, then to CRLF). -/
def normalizeNewlines (content : List Char) : List Char :=
  let escapedContent := content
  let escapedContent := ReplaceAll escapedContent "\r\n".toList "\n".toList
  let escapedContent := ReplaceAll escapedContent "\r".toList "\n".toList
  let escapedContent := ReplaceAll escapedContent "\n".toList "\r\n".toList
  escapedContent

/-- The three entity replacements applied to the content after newline normalisation. -/
def escapeContent (escapedContent : List Char) : List Char :=
  let escapedContent := ReplaceAll escapedContent "&".toList "&amp;".toList
  let escapedContent := ReplaceAll escapedContent "<".toList "&lt;".toList
  let escapedContent := ReplaceAll escapedContent ">".toList "&gt;".toList
  escapedContent

/-- The `fmt.Sprintf` call: the raw-string format with its four `%s` verbs filled in. -/
def sprintfEnvelope (ver createdAt modifiedAt content : List Char) : List Char :=
  "<?xml version=\x221.0\x22 encoding=\x22UTF-8\x22?>\n<wenshi ver=\x22".toList ++ ver ++
    "\x22 createdAt=\x22".toList ++ createdAt ++ "\x22 modifiedAt=\x22".toList ++ modifiedAt ++
    "\x22>".toList ++ content ++ "</wenshi>".toList

/-- The method `SerializeWenFile`; `now` is `time.Now().Format(time.RFC3339)`. -/
def SerializeWenFile (L : Lib) (now : List Char) (content createdAt modifiedAt : List Char) :
    List Char × Option String :=
  let validationResult := ValidateTxtFile L content
  if !validationResult.IsValid then
    ([], some ("Invalid content: " ++ validationResult.ErrorMessage))
  else
    let createdAt := if createdAt = [] then now else createdAt
    let modifiedAt := if modifiedAt = [] then now else modifiedAt
    if !L.ParseTime createdAt then
      ([], some "Invalid timestamp format in 'createdAt'")
    else if !L.ParseTime modifiedAt then
      ([], some "Invalid timestamp format in 'modifiedAt'")
    else
      let escapedContent := escapeContent (normalizeNewlines content)
      let result := sprintfEnvelope (escapeAttr "1.0".toList) (escapeAttr createdAt)
        (escapeAttr modifiedAt) escapedContent
      (result, none)

/-! ## ParseWenFile -/

/-- An XML decoder filling a `wenshiXML`, or failing with an error text. -/
abbrev Decoder := List Char → Except String wenshiXML

/-- The method `ParseWenFile`; `unmarshal` stands for `xml.Unmarshal`. -/
def ParseWenFile (L : Lib) (unmarshal : Decoder) (content : List Char) :
    WenFileData × Option String :=
  let result : WenFileData := { Ver := [], CreatedAt := [], ModifiedAt := [], Content := [] }
  match unmarshal content with
  | .error err => (result, some ("Invalid .wen file: " ++ err))
  | .ok xmlData =>
    if xmlData.Ver = [] then
      (result, some "Invalid .wen file: missing required attribute 'ver'")
    else if xmlData.CreatedAt = [] then
      (result, some "Invalid .wen file: missing required attribute 'createdAt'")
    else if xmlData.ModifiedAt = [] then
      (result, some "Invalid .wen file: missing required attribute 'modifiedAt'")
    else if !L.ParseTime xmlData.CreatedAt then
      (result, some "Invalid .wen file: invalid timestamp format in 'createdAt'")
    else if !L.ParseTime xmlData.ModifiedAt then
      (result, some "Invalid .wen file: invalid timestamp format in 'modifiedAt'")
    else
      let validationResult := ValidateTxtFile L xmlData.Content
      if !validationResult.IsValid then
        (result, some ("Invalid .wen file content: " ++ validationResult.ErrorMessage))
      else
        ({ Ver := xmlData.Ver, CreatedAt := xmlData.CreatedAt,
           ModifiedAt := xmlData.ModifiedAt, Content := TrimSpace xmlData.Content }, none)

/-! ## A concrete library

`unicode.Punct` above Latin-1 (Unicode 14.0.0) and the strict RFC 3339 recogniser of
package `time`. -/

/-- Ranges of category P above U+00FF. -/
def punctRanges : List (Nat × Nat) :=
  [
   (0x37E, 0x37E), (0x387, 0x387), (0x55A, 0x55F), (0x589, 0x58A), (0x5BE, 0x5BE), (0x5C0, 0x5C0),
   (0x5C3, 0x5C3), (0x5C6, 0x5C6), (0x5F3, 0x5F4), (0x609, 0x60A), (0x60C, 0x60D), (0x61B, 0x61B),
   (0x61D, 0x61F), (0x66A, 0x66D), (0x6D4, 0x6D4), (0x700, 0x70D), (0x7F7, 0x7F9), (0x830, 0x83E),
   (0x85E, 0x85E), (0x964, 0x965), (0x970, 0x970), (0x9FD, 0x9FD), (0xA76, 0xA76), (0xAF0, 0xAF0),
   (0xC77, 0xC77), (0xC84, 0xC84), (0xDF4, 0xDF4), (0xE4F, 0xE4F), (0xE5A, 0xE5B), (0xF04, 0xF12),
   (0xF14, 0xF14), (0xF3A, 0xF3D), (0xF85, 0xF85), (0xFD0, 0xFD4), (0xFD9, 0xFDA),
   (0x104A, 0x104F), (0x10FB, 0x10FB), (0x1360, 0x1368), (0x1400, 0x1400), (0x166E, 0x166E),
   (0x169B, 0x169C), (0x16EB, 0x16ED), (0x1735, 0x1736), (0x17D4, 0x17D6), (0x17D8, 0x17DA),
   (0x1800, 0x180A), (0x1944, 0x1945), (0x1A1E, 0x1A1F), (0x1AA0, 0x1AA6), (0x1AA8, 0x1AAD),
   (0x1B5A, 0x1B60), (0x1B7D, 0x1B7E), (0x1BFC, 0x1BFF), (0x1C3B, 0x1C3F), (0x1C7E, 0x1C7F),
   (0x1CC0, 0x1CC7), (0x1CD3, 0x1CD3), (0x2010, 0x2027), (0x2030, 0x2043), (0x2045, 0x2051),
   (0x2053, 0x205E), (0x207D, 0x207E), (0x208D, 0x208E), (0x2308, 0x230B), (0x2329, 0x232A),
   (0x2768, 0x2775), (0x27C5, 0x27C6), (0x27E6, 0x27EF), (0x2983, 0x2998), (0x29D8, 0x29DB),
   (0x29FC, 0x29FD), (0x2CF9, 0x2CFC), (0x2CFE, 0x2CFF), (0x2D70, 0x2D70), (0x2E00, 0x2E2E),
   (0x2E30, 0x2E4F), (0x2E52, 0x2E5D), (0x3001, 0x3003), (0x3008, 0x3011), (0x3014, 0x301F),
   (0x3030, 0x3030), (0x303D, 0x303D), (0x30A0, 0x30A0), (0x30FB, 0x30FB), (0xA4FE, 0xA4FF),
   (0xA60D, 0xA60F), (0xA673, 0xA673), (0xA67E, 0xA67E), (0xA6F2, 0xA6F7), (0xA874, 0xA877),
   (0xA8CE, 0xA8CF), (0xA8F8, 0xA8FA), (0xA8FC, 0xA8FC), (0xA92E, 0xA92F), (0xA95F, 0xA95F),
   (0xA9C1, 0xA9CD), (0xA9DE, 0xA9DF), (0xAA5C, 0xAA5F), (0xAADE, 0xAADF), (0xAAF0, 0xAAF1),
   (0xABEB, 0xABEB), (0xFD3E, 0xFD3F), (0xFE10, 0xFE19), (0xFE30, 0xFE52), (0xFE54, 0xFE61),
   (0xFE63, 0xFE63), (0xFE68, 0xFE68), (0xFE6A, 0xFE6B), (0xFF01, 0xFF03), (0xFF05, 0xFF0A),
   (0xFF0C, 0xFF0F), (0xFF1A, 0xFF1B), (0xFF1F, 0xFF20), (0xFF3B, 0xFF3D), (0xFF3F, 0xFF3F),
   (0xFF5B, 0xFF5B), (0xFF5D, 0xFF5D), (0xFF5F, 0xFF65), (0x10100, 0x10102), (0x1039F, 0x1039F),
   (0x103D0, 0x103D0), (0x1056F, 0x1056F), (0x10857, 0x10857), (0x1091F, 0x1091F),
   (0x1093F, 0x1093F), (0x10A50, 0x10A58), (0x10A7F, 0x10A7F), (0x10AF0, 0x10AF6),
   (0x10B39, 0x10B3F), (0x10B99, 0x10B9C), (0x10EAD, 0x10EAD), (0x10F55, 0x10F59),
   (0x10F86, 0x10F89), (0x11047, 0x1104D), (0x110BB, 0x110BC), (0x110BE, 0x110C1),
   (0x11140, 0x11143), (0x11174, 0x11175), (0x111C5, 0x111C8), (0x111CD, 0x111CD),
   (0x111DB, 0x111DB), (0x111DD, 0x111DF), (0x11238, 0x1123D), (0x112A9, 0x112A9),
   (0x1144B, 0x1144F), (0x1145A, 0x1145B), (0x1145D, 0x1145D), (0x114C6, 0x114C6),
   (0x115C1, 0x115D7), (0x11641, 0x11643), (0x11660, 0x1166C), (0x116B9, 0x116B9),
   (0x1173C, 0x1173E), (0x1183B, 0x1183B), (0x11944, 0x11946), (0x119E2, 0x119E2),
   (0x11A3F, 0x11A46), (0x11A9A, 0x11A9C), (0x11A9E, 0x11AA2), (0x11C41, 0x11C45),
   (0x11C70, 0x11C71), (0x11EF7, 0x11EF8), (0x11FFF, 0x11FFF), (0x12470, 0x12474),
   (0x12FF1, 0x12FF2), (0x16A6E, 0x16A6F), (0x16AF5, 0x16AF5), (0x16B37, 0x16B3B),
   (0x16B44, 0x16B44), (0x16E97, 0x16E9A), (0x16FE2, 0x16FE2), (0x1BC9F, 0x1BC9F),
   (0x1DA87, 0x1DA8B), (0x1E95E, 0x1E95F)
  ]

/-- Membership in `punctRanges`. -/
def unicodePunct (r : Char) : Bool :=
  punctRanges.any (fun p => p.1 ≤ r.toNat && r.toNat ≤ p.2)

/-- ASCII decimal digit. -/
def isDigit (c : Char) : Bool := 0x30 ≤ c.toNat && c.toNat ≤ 0x39

/-- The helper `parseUint` of `parseRFC3339`: a run of digits read as a number that must
lie in `[min, max]`. -/
def parseUint (s : List Char) (min max : Nat) : Option Nat :=
  if s.all isDigit then
    let x := s.foldl (fun x c => x * 10 + (c.toNat - 0x30)) 0
    if min ≤ x ∧ x ≤ max then some x else none
  else none

/-- Go `daysIn`. -/
def daysIn (month year : Nat) : Nat :=
  if month = 2 then
    if year % 4 = 0 ∧ (year % 100 ≠ 0 ∨ year % 400 = 0) then 29 else 28
  else if month = 4 ∨ month = 6 ∨ month = 9 ∨ month = 11 then 30
  else 31

/-- The zone suffix accepted by `parseRFC3339`: `Z` or a numeric offset `±hh:mm`. -/
def zoneOK (s : List Char) : Bool :=
  if s = ['Z'] then true
  else if s.length ≠ 6 then false
  else
    (parseUint ((s.drop 1).take 2) 0 23).isSome && (parseUint ((s.drop 4).take 2) 0 59).isSome &&
      (s.take 1 == ['-'] || s.take 1 == ['+']) && (s.drop 3).take 1 == [':']

/-- The fast path `parseRFC3339` of package `time` (Go 1.20 and later), as a recogniser.
What only the lenient fallback of `time.Parse` accepts (a one-digit hour, a comma before
the fraction, zone offsets beyond 23:59) is not recognised. -/
def parseRFC3339 (s : List Char) : Bool :=
  if s.length < 19 then false
  else
    match parseUint (s.take 4) 0 9999, parseUint ((s.drop 5).take 2) 1 12 with
    | some year, some month =>
      (parseUint ((s.drop 8).take 2) 1 (daysIn month year)).isSome &&
        (parseUint ((s.drop 11).take 2) 0 23).isSome &&
        (parseUint ((s.drop 14).take 2) 0 59).isSome &&
        (parseUint ((s.drop 17).take 2) 0 59).isSome &&
        (s.drop 4).take 1 == ['-'] && (s.drop 7).take 1 == ['-'] &&
        (s.drop 10).take 1 == ['T'] && (s.drop 13).take 1 == [':'] &&
        (s.drop 16).take 1 == [':'] &&
        (let t := s.drop 19
         match t with
         | a :: b :: u =>
           if a = '.' ∧ isDigit b then zoneOK (u.dropWhile isDigit) else zoneOK t
         | _ => zoneOK t)
    | _, _ => false

/-- The concrete library. -/
def goLib : Lib := { Punct := unicodePunct, ParseTime := parseRFC3339 }

/-! ## A model of `xml.Unmarshal` into `wenshiXML`

The decoder of package `encoding/xml` (strict mode, no custom entities, no charset
reader), restricted to documents of the shape

    [<?xml version="1.0" encoding="UTF-8"?>] [text] <wenshi attr="v" ...> text </wenshi>

with quoted attribute values and the five predefined entities.  Other constructs
(comments, CDATA sections, directives, further processing instructions, child
elements, numeric character references, namespace prefixes, non-ASCII names) are outside
the model, which answers them with an error. -/

/-- Go `isInCharacterRange`: the characters XML 1.0 allows in a document. -/
def isInCharacterRange (r : Char) : Bool :=
  r.toNat == 0x09 || r.toNat == 0x0A || r.toNat == 0x0D ||
    (0x20 ≤ r.toNat && r.toNat ≤ 0xD7FF) ||
    (0xE000 ≤ r.toNat && r.toNat ≤ 0xFFFD) ||
    (0x10000 ≤ r.toNat && r.toNat ≤ 0x10FFFF)

/-- Go `isNameByte`, extended to the bytes of multi-byte runes, which `readName` also
accepts. -/
def isNameByte (c : Char) : Bool :=
  (0x41 ≤ c.toNat && c.toNat ≤ 0x5A) || (0x61 ≤ c.toNat && c.toNat ≤ 0x7A) ||
    (0x30 ≤ c.toNat && c.toNat ≤ 0x39) || c == '_' || c == ':' || c == '.' || c == '-' ||
    0x80 ≤ c.toNat

/-- The map `entity` of predefined entities. -/
def entityChar (name : List Char) : Option Char :=
  if name = "lt".toList then some '<'
  else if name = "gt".toList then some '>'
  else if name = "amp".toList then some '&'
  else if name = "apos".toList then some '\x27'
  else if name = "quot".toList then some '\x22'
  else none

/-- Position of the scanner of `Decoder.text`: in running text, remembering the two
bytes read before (`b0`, `b1`), or inside an entity reference whose name is being read. -/
inductive TextState where
  | plain (b0 b1 : Char)
  | entity (name : List Char)

/-- The scanning loop of `Decoder.text(quote, false)`: returns the decoded data and the
unread input.  Text ends at the closing quote (consumed), at `<` (left unread) or at
the end of the input; `]]>` is refused in character data, not in a quoted value. -/
def textLoop (quote : Option Char) : TextState → List Char →
    Except String (List Char × List Char)
  | .plain _ _, [] => .ok ([], [])
  | .entity _, [] => .error "unexpected EOF"
  | .plain b0 b1, b :: rest =>
    if quote = none ∧ b0 = ']' ∧ b1 = ']' ∧ b = '>' then
      .error "unescaped ]]> not in CDATA section"
    else if b = '<' then
      if quote.isSome then .error "unescaped < inside quoted string"
      else .ok ([], b :: rest)
    else if quote = some b then .ok ([], rest)
    else if b = '&' then textLoop quote (.entity []) rest
    else
      match textLoop quote (.plain b1 b) rest with
      | .error e => .error e
      | .ok (data, rest1) =>
        if b = '\r' then .ok ('\n' :: data, rest1)
        else if b1 = '\r' ∧ b = '\n' then .ok (data, rest1)
        else .ok (b :: data, rest1)
  | .entity name, b :: rest =>
    if isNameByte b then textLoop quote (.entity (name ++ [b])) rest
    else if b = ';' then
      match entityChar name with
      | none => .error "invalid character entity"
      | some r =>
        match textLoop quote (.plain (Char.ofNat 0) (Char.ofNat 0)) rest with
        | .error e => .error e
        | .ok (data, rest1) => .ok (r :: data, rest1)
    else .error "invalid character entity (no semicolon)"

/-- The method `Decoder.text(quote, false)`: the scanning loop followed by the check that
every decoded rune is an XML character. -/
def xmlText (quote : Option Char) (s : List Char) : Except String (List Char × List Char) :=
  match textLoop quote (.plain (Char.ofNat 0) (Char.ofNat 0)) s with
  | .error e => .error e
  | .ok (data, rest) =>
    if data.all isInCharacterRange then .ok (data, rest)
    else .error "illegal character code"

/-- The method `Decoder.space`: skip blanks, tabs and line ends. -/
def xmlSpace (s : List Char) : List Char :=
  s.dropWhile (fun c => c == ' ' || c == '\r' || c == '\n' || c == '\t')

/-- An ASCII XML name without a colon: a letter or underscore followed by name bytes. -/
def isAsciiName (name : List Char) : Bool :=
  match name with
  | [] => false
  | c :: cs =>
    ((0x41 ≤ c.toNat && c.toNat ≤ 0x5A) || (0x61 ≤ c.toNat && c.toNat ≤ 0x7A) || c == '_') &&
      cs.all (fun d => isNameByte d && d.toNat < 0x80 && d != ':')

/-- The method `Decoder.name` on the modelled fragment: the maximal run of name bytes,
which must be a name. -/
def xmlName (s : List Char) : Except String (List Char × List Char) :=
  let name := s.takeWhile isNameByte
  if name = [] then .error "expected name"
  else if isAsciiName name then .ok (name, s.dropWhile isNameByte)
  else .error "invalid XML name"

/-- The attribute loop of `Decoder.rawToken` for a start tag: the attributes in order,
whether the tag was closed by `/>`, and the unread input.  Every round consumes input, so
a counter equal to the length of the input is never exhausted before the input is. -/
def xmlAttrs : Nat → List Char →
    Except String (List (List Char × List Char) × Bool × List Char)
  | 0, _ => .error "unexpected EOF"
  | fuel + 1, s =>
    match xmlSpace s with
    | [] => .error "unexpected EOF"
    | b :: rest =>
      if b = '/' then
        match rest with
        | [] => .error "unexpected EOF"
        | c :: rest1 => if c = '>' then .ok ([], true, rest1) else .error "expected /> in element"
      else if b = '>' then .ok ([], false, rest)
      else
        match xmlName (b :: rest) with
        | .error e => .error e
        | .ok (name, s1) =>
          match xmlSpace s1 with
          | [] => .error "unexpected EOF"
          | e :: s2 =>
            if e ≠ '=' then .error "attribute name without = in element"
            else
              match xmlSpace s2 with
              | [] => .error "unexpected EOF"
              | q :: s3 =>
                if q = '\x22' ∨ q = '\x27' then
                  match xmlText (some q) s3 with
                  | .error e => .error e
                  | .ok (value, s4) =>
                    match xmlAttrs fuel s4 with
                    | .error e => .error e
                    | .ok (more, closed, s5) => .ok ((name, value) :: more, closed, s5)
                else .error "unquoted or missing attribute value in element"

/-- Copying the attributes into the fields tagged `ver,attr`, `createdAt,attr` and
`modifiedAt,attr`, in document order (a repeated attribute overwrites). -/
def assignAttrs (attrs : List (List Char × List Char)) : wenshiXML :=
  attrs.foldl
    (fun x a =>
      if a.1 = "ver".toList then { x with Ver := a.2 }
      else if a.1 = "createdAt".toList then { x with CreatedAt := a.2 }
      else if a.1 = "modifiedAt".toList then { x with ModifiedAt := a.2 }
      else x)
    { Ver := [], CreatedAt := [], ModifiedAt := [], Content := [] }

/-- The XML declaration written by `SerializeWenFile`. -/
def xmlDecl : List Char := "<?xml version=\x221.0\x22 encoding=\x22UTF-8\x22?>".toList

/-- The end tag that must follow the character data. -/
def xmlEndTag (x : wenshiXML) (data s : List Char) : Except String wenshiXML :=
  match s with
  | [] => .error "unexpected EOF"
  | _ :: s1 =>
    match s1 with
    | [] => .error "unexpected EOF"
    | c :: s2 =>
      if c ≠ '/' then .error "child elements are outside the model"
      else
        match xmlName s2 with
        | .error e => .error e
        | .ok (name, s3) =>
          if name ≠ "wenshi".toList then .error "element <wenshi> closed by another end tag"
          else
            match xmlSpace s3 with
            | [] => .error "unexpected EOF"
            | g :: _ =>
              if g = '>' then .ok { x with Content := data }
              else .error "invalid characters between </wenshi and >"

/-- The call `xml.Unmarshal([]byte(content), &xmlData)` on the modelled fragment. -/
def xmlUnmarshal (input : List Char) : Except String wenshiXML :=
  let s := if xmlDecl.isPrefixOf input then input.drop xmlDecl.length else input
  match xmlText none s with
  | .error e => .error e
  | .ok (_, s1) =>
    match s1 with
    | [] => .error "EOF"
    | _ :: s2 =>
      match xmlName s2 with
      | .error e => .error e
      | .ok (name, s3) =>
        match xmlAttrs s3.length s3 with
        | .error e => .error e
        | .ok (attrs, closed, s4) =>
          if name ≠ "wenshi".toList then .error "expected element type <wenshi>"
          else if closed then .ok (assignAttrs attrs)
          else
            match xmlText none s4 with
            | .error e => .error e
            | .ok (data, s5) => xmlEndTag (assignAttrs attrs) data s5

/-! ## Specification-side vocabulary -/

/-- The characters the counting loop does not skip. -/
def counted (L : Lib) (s : List Char) : List Char :=
  s.filter (fun r => !(IsSpace r || IsPunct L r))

/-- An annotation marker with the given body. -/
def marker (body : List Char) : List Char :=
  "\x7b\x7b".toList ++ body ++ "\x7d\x7d".toList

/-- The entity standing for one character: `&`, `<`, `>` always, the double quote in
attribute values only. -/
def escChar (attr : Bool) (c : Char) : List Char :=
  if c = '&' then "&amp;".toList
  else if c = '<' then "&lt;".toList
  else if c = '>' then "&gt;".toList
  else if attr = true ∧ c = '\x22' then "&quot;".toList
  else [c]

/-- Character-by-character escaping. -/
def escapeChars (attr : Bool) (s : List Char) : List Char :=
  s.flatMap (escChar attr)

/-- The first two newline replacements of `SerializeWenFile`: CRLF, then a lone CR,
become LF. -/
def toLF (s : List Char) : List Char :=
  ReplaceAll (ReplaceAll s "\r\n".toList "\n".toList) "\r".toList "\n".toList

/-- What `Decoder.text` does to line ends: CR becomes LF and an LF right after a CR is
dropped; the flag tells whether the previous character was a CR. -/
def decodeNewlines : Bool → List Char → List Char
  | _, [] => []
  | prevCR, c :: cs =>
    if c = '\r' then '\n' :: decodeNewlines true cs
    else if prevCR = true ∧ c = '\n' then decodeNewlines false cs
    else c :: decodeNewlines false cs

/-- Every line break written as CRLF: a CR is a break, an LF right after a CR belongs to
that break, any other LF is a break of its own; all other characters are copied.  The
flag tells whether the previous character was a CR. -/
def crlfLineEnds : Bool → List Char → List Char
  | _, [] => []
  | prevCR, c :: cs =>
    if c = '\r' then '\r' :: '\n' :: crlfLineEnds true cs
    else if c = '\n' then
      if prevCR = true then crlfLineEnds false cs else '\r' :: '\n' :: crlfLineEnds false cs
    else c :: crlfLineEnds false cs

/-- The predefined entity reference at the head of the input, if any: the character it
stands for and the number of characters it takes. -/
def entityAt (s : List Char) : Option (Char × Nat) :=
  if "&amp;".toList.isPrefixOf s then some ('&', 5)
  else if "&lt;".toList.isPrefixOf s then some ('<', 4)
  else if "&gt;".toList.isPrefixOf s then some ('>', 4)
  else if "&quot;".toList.isPrefixOf s then some ('\x22', 6)
  else if "&apos;".toList.isPrefixOf s then some ('\x27', 6)
  else none

/-- Worker of `unescapeEntities`; the counter is the number of characters of the
current reference that remain to be skipped. -/
def unescapeAux : Nat → List Char → List Char
  | _, [] => []
  | n + 1, _ :: cs => unescapeAux n cs
  | 0, c :: cs =>
    match entityAt (c :: cs) with
    | some (r, k) => r :: unescapeAux (k - 1) cs
    | none => c :: unescapeAux 0 cs

/-- Standard XML unescaping of the five predefined entities, in one pass from left to
right: what replaces a reference is not looked at again. -/
def unescapeEntities (s : List Char) : List Char :=
  unescapeAux 0 s

/-- Worker of `joinsClose`.  `lastClose` tells whether the last character kept by the
pass is a closing brace, `deleted` whether a match was deleted after that character; the
counter is the one of `stripAux`. -/
def joinsAux : Bool → Bool → Nat → List Char → Bool
  | _, _, _, [] => false
  | lastClose, deleted, n + 1, _ :: cs => joinsAux lastClose deleted n cs
  | lastClose, deleted, 0, c :: cs =>
    match markerLen (c :: cs) with
    | some k => joinsAux lastClose true (k - 1) cs
    | none => (lastClose && deleted && c == '\x7d') || joinsAux (c == '\x7d') false 0 cs

/-- Whether the pass of `stripMarkers` brings two closing braces together: it keeps a
closing brace, deletes one or more matches right after it, and then keeps another
closing brace. -/
def joinsClose (s : List Char) : Bool :=
  joinsAux false false 0 s

/-! ## Counting -/

theorem foldl_countStep (L : Lib) (s : List Char) (a b : Nat) :
    s.foldl (countStep L) (a, b) =
      (a + (counted L s).length, b + ((counted L s).filter isCJK).length) := by
  induction s generalizing a b with
  | nil => simp [counted]
  | cons r rs ih =>
    rw [List.foldl_cons]
    by_cases h : (IsSpace r || IsPunct L r) = true
    · have hc : counted L (r :: rs) = counted L rs := by
        unfold counted
        exact List.filter_cons_of_neg (by simp only [h, Bool.not_true, Bool.false_eq_true, not_false_eq_true])
      rw [hc]
      simp only [countStep, h, if_true]
      exact ih a b
    · have hc : counted L (r :: rs) = r :: counted L rs := by
        unfold counted
        have h0 : (IsSpace r || IsPunct L r) = false := by simpa using h
        exact List.filter_cons_of_pos (by simp only [h0, Bool.not_false])
      rw [hc]
      simp only [countStep, h]
      by_cases hk : isCJK r = true
      · simp only [hk, if_true, Bool.false_eq_true, if_false]
        rw [ih]
        simp [hk]
        omega
      · simp only [hk, Bool.false_eq_true, if_false]
        rw [ih]
        simp [hk]
        omega

theorem countChars_eq (L : Lib) (s : List Char) :
    countChars L s = ((counted L s).length, ((counted L s).filter isCJK).length) := by
  unfold countChars
  rw [foldl_countStep]
  simp

theorem ratio_lt_half (c t : Nat) (ht : t ≠ 0) :
    ((c : ℚ) / (t : ℚ) < 1 / 2) ↔ 2 * c < t := by
  have htq : (0 : ℚ) < (t : ℚ) := by exact_mod_cast Nat.pos_of_ne_zero ht
  rw [div_lt_iff₀ htq]
  constructor
  · intro h
    have h2 : (2 * c : ℚ) < (t : ℚ) := by linarith
    exact_mod_cast h2
  · intro h
    have h2 : (2 * c : ℚ) < (t : ℚ) := by exact_mod_cast h
    linarith

theorem Contains_singleton (s : List Char) (a : Char) : Contains s [a] = true ↔ a ∈ s := by
  induction s with
  | nil => simp [Contains]
  | cons c cs ih =>
    simp only [Contains, Bool.or_eq_true, ih, List.mem_cons]
    constructor
    · rintro (h | h)
      · left
        simp [List.isPrefixOf] at h
        exact h
      · right; exact h
    · rintro (h | h)
      · left
        subst h
        simp [List.isPrefixOf]
      · right; exact h

/-- The decision procedure of `ValidateTxtFile`, with the ratio test in integer form. -/
theorem ValidateTxtFile_eq (L : Lib) (c : List Char) :
    ValidateTxtFile L c =
      if TrimSpace c = [] then ⟨false, "File is empty"⟩
      else if '<' ∈ stripMarkers c ∨ '>' ∈ stripMarkers c then
        ⟨false, "File contains XML tags (< or >) which are not allowed in .txt files"⟩
      else if (counted L (stripMarkers c)).length = 0 then
        ⟨false, "File contains no text characters"⟩
      else if 2 * ((counted L (stripMarkers c)).filter isCJK).length
          < (counted L (stripMarkers c)).length then
        ⟨false, "File must contain at least 50% CJK characters"⟩
      else ⟨true, ""⟩ := by
  unfold ValidateTxtFile
  by_cases h1 : TrimSpace c = []
  · simp [h1]
  · simp only [h1, if_false]
    by_cases h2 : '<' ∈ stripMarkers c ∨ '>' ∈ stripMarkers c
    · have : (Contains (stripMarkers c) ['<'] || Contains (stripMarkers c) ['>']) = true := by
        simpa [Bool.or_eq_true, Contains_singleton] using h2
      simp [this, h2]
    · have : ¬ (Contains (stripMarkers c) ['<'] || Contains (stripMarkers c) ['>']) = true := by
        simpa [Bool.or_eq_true, Contains_singleton] using h2
      simp only [this, h2, if_false, countChars_eq, Bool.false_eq_true]
      by_cases h3 : (counted L (stripMarkers c)).length = 0
      · simp [h3]
      · simp only [h3, if_false, ratio_lt_half _ _ h3]

/-- The five possible outcomes of `ValidateTxtFile`. -/
theorem ValidateTxtFile_cases (L : Lib) (text : List Char) :
    ValidateTxtFile L text = { IsValid := true, ErrorMessage := "" } ∨
      ValidateTxtFile L text = { IsValid := false, ErrorMessage := "File is empty" } ∨
      ValidateTxtFile L text =
        { IsValid := false,
          ErrorMessage := "File contains XML tags (< or >) which are not allowed in .txt files" } ∨
      ValidateTxtFile L text =
        { IsValid := false, ErrorMessage := "File contains no text characters" } ∨
      ValidateTxtFile L text =
        { IsValid := false, ErrorMessage := "File must contain at least 50% CJK characters" } := by
  rw [ValidateTxtFile_eq]
  split_ifs <;> simp

/-! ## Trimming and marker stripping -/

theorem TrimSpace_eq_nil_iff (s : List Char) : TrimSpace s = [] ↔ ∀ x ∈ s, IsSpace x = true := by
  unfold TrimSpace
  rw [List.rdropWhile_eq_nil_iff]
  constructor
  · intro h
    have hd : List.dropWhile IsSpace (List.dropWhile IsSpace s) = [] :=
      List.dropWhile_eq_nil_iff.mpr h
    rw [List.dropWhile_idempotent] at hd
    exact List.dropWhile_eq_nil_iff.mp hd
  · intro h
    rw [List.dropWhile_eq_nil_iff.mpr h]
    intro x hx
    cases hx

theorem stripAux_eq_drop (n : Nat) (s : List Char) : stripAux n s = stripMarkers (s.drop n) := by
  induction s generalizing n with
  | nil => simp [stripMarkers, stripAux]
  | cons c cs ih =>
    cases n with
    | zero => simp [stripMarkers]
    | succ m =>
      simp only [stripAux, List.drop_succ_cons]
      exact ih m

theorem dropWhile_notClose (body t : List Char) (h : '\x7d' ∉ body) :
    (body ++ '\x7d' :: t).dropWhile (fun ch => ch != '\x7d') = '\x7d' :: t := by
  induction body with
  | nil => simp
  | cons b bs ih =>
    have hb : b ≠ '\x7d' := fun e => h (by simp [e])
    have hbs : '\x7d' ∉ bs := fun e => h (List.mem_cons_of_mem _ e)
    simp [List.dropWhile_cons, hb, ih hbs]

theorem takeWhile_notClose (body t : List Char) (h : '\x7d' ∉ body) :
    (body ++ '\x7d' :: t).takeWhile (fun ch => ch != '\x7d') = body := by
  induction body with
  | nil => simp
  | cons b bs ih =>
    have hb : b ≠ '\x7d' := fun e => h (by simp [e])
    have hbs : '\x7d' ∉ bs := fun e => h (List.mem_cons_of_mem _ e)
    simp [List.takeWhile_cons, hb, ih hbs]

theorem dropWhile_notClose_nil (body : List Char) (h : '\x7d' ∉ body) :
    body.dropWhile (fun ch => ch != '\x7d') = [] := by
  rw [List.dropWhile_eq_nil_iff]
  intro x hx
  have : x ≠ '\x7d' := fun e => h (e ▸ hx)
  simpa using this

/-- A marker at the head of the input is matched in full. -/
theorem markerLen_marker (body rest : List Char) (h : '\x7d' ∉ body) :
    markerLen ('\x7b' :: '\x7b' :: (body ++ '\x7d' :: '\x7d' :: rest)) = some (body.length + 4) := by
  simp [markerLen, dropWhile_notClose body _ h, takeWhile_notClose body _ h]

/-- A match at the head of the input is a marker. -/
theorem markerLen_some (s : List Char) (k : Nat) (h : markerLen s = some k) :
    ∃ body rest, s = '\x7b' :: '\x7b' :: (body ++ '\x7d' :: '\x7d' :: rest) ∧ '\x7d' ∉ body ∧
      k = body.length + 4 := by
  match s, h with
  | a :: b :: r, h =>
    simp only [markerLen] at h
    split_ifs at h with hab
    obtain ⟨ha, hb⟩ := hab
    subst ha hb
    have hsplit := List.takeWhile_append_dropWhile (fun ch => ch != '\x7d') r
    have hbody : '\x7d' ∉ r.takeWhile (fun ch => ch != '\x7d') := by
      intro hm
      have := List.mem_takeWhile_imp hm
      simp at this
    cases hd : r.dropWhile (fun ch => ch != '\x7d') with
    | nil => rw [hd] at h; simp at h
    | cons x t =>
      cases t with
      | nil => rw [hd] at h; simp at h
      | cons y t2 =>
        rw [hd] at h
        simp only at h
        split_ifs at h with hxy
        obtain ⟨hx, hy⟩ := hxy
        subst hx hy
        refine ⟨r.takeWhile (fun ch => ch != '\x7d'), t2, ?_, hbody, ?_⟩
        · rw [← hd, hsplit]
        · simpa using h.symm

theorem stripMarkers_nil : stripMarkers [] = [] := rfl

theorem stripMarkers_cons_none (c : Char) (cs : List Char) (h : markerLen (c :: cs) = none) :
    stripMarkers (c :: cs) = c :: stripMarkers cs := by
  simp [stripMarkers, stripAux, h]

theorem stripMarkers_marker (body rest : List Char) (h : '\x7d' ∉ body) :
    stripMarkers ('\x7b' :: '\x7b' :: (body ++ '\x7d' :: '\x7d' :: rest)) = stripMarkers rest := by
  have hm := markerLen_marker body rest h
  unfold stripMarkers
  rw [stripAux, hm]
  simp only
  rw [stripAux_eq_drop]
  congr 1
  simp [List.drop_append]

/-- A character that opens no marker is copied. -/
theorem markerLen_ne_open (c : Char) (cs : List Char) (h : c ≠ '\x7b') :
    markerLen (c :: cs) = none := by
  cases cs with
  | nil => rfl
  | cons d ds => simp [markerLen, h]

/-! ## Replacement of single characters -/

theorem ReplaceAll_single (s : List Char) (a : Char) (new : List Char) :
    ReplaceAll s [a] new = s.flatMap (fun x => if x = a then new else [x]) := by
  unfold ReplaceAll
  induction s with
  | nil => simp [ReplaceAllAux]
  | cons c cs ih =>
    by_cases h : c = a
    · subst h
      simp [ReplaceAllAux, List.isPrefixOf, ih]
    · have h2 : ¬ a = c := fun e => h e.symm
      simp [ReplaceAllAux, List.isPrefixOf, ih, h, h2]

theorem escapeContent_eq (s : List Char) : escapeContent s = escapeChars false s := by
  unfold escapeContent escapeChars
  simp only [String.toList]
  rw [ReplaceAll_single, ReplaceAll_single, ReplaceAll_single, List.flatMap_assoc,
    List.flatMap_assoc]
  congr 1
  funext x
  unfold escChar
  by_cases h1 : x = '&'
  · subst h1; decide
  · by_cases h2 : x = '<'
    · subst h2; decide
    · by_cases h3 : x = '>'
      · subst h3; decide
      · simp [h1, h2, h3]

theorem escapeAttr_eq (s : List Char) : escapeAttr s = escapeChars true s := by
  unfold escapeAttr escapeChars
  simp only [String.toList]
  rw [ReplaceAll_single, ReplaceAll_single, ReplaceAll_single, ReplaceAll_single,
    List.flatMap_assoc, List.flatMap_assoc, List.flatMap_assoc]
  congr 1
  funext x
  unfold escChar
  by_cases h1 : x = '&'
  · subst h1; decide
  · by_cases h2 : x = '<'
    · subst h2; decide
    · by_cases h3 : x = '>'
      · subst h3; decide
      · by_cases h4 : x = '\x22'
        · subst h4; decide
        · simp [h1, h2, h3, h4]

/-- The successful path of `SerializeWenFile`, with the escaping spelled out character
by character. -/
theorem SerializeWenFile_ok (L : Lib) (now c ca ma : List Char)
    (hv : (ValidateTxtFile L c).IsValid = true) (hca : ca ≠ []) (hma : ma ≠ [])
    (hpc : L.ParseTime ca = true) (hpm : L.ParseTime ma = true) :
    SerializeWenFile L now c ca ma =
      (sprintfEnvelope "1.0".toList (escapeChars true ca) (escapeChars true ma)
        (escapeChars false (normalizeNewlines c)), none) := by
  unfold SerializeWenFile
  simp only [hv, hca, hma, hpc, hpm, if_false, Bool.not_true, Bool.false_eq_true]
  rw [escapeContent_eq, escapeAttr_eq, escapeAttr_eq, escapeAttr_eq]
  have hver : escapeChars true "1.0".toList = "1.0".toList := by decide
  rw [hver]

/-! ## Validation does not depend on surrounding white space -/

theorem rdropWhile_decomp (p : Char → Bool) (l : List Char) :
    ∃ t, l = l.rdropWhile p ++ t ∧ ∀ x ∈ t, p x = true := by
  induction l using List.reverseRecOn with
  | nil => exact ⟨[], by simp, by simp⟩
  | append_singleton l x ih =>
    by_cases hx : p x = true
    · obtain ⟨t, ht, hall⟩ := ih
      refine ⟨t ++ [x], ?_, ?_⟩
      · rw [List.rdropWhile_concat_pos _ _ _ hx, ← List.append_assoc, ← ht]
      · intro y hy
        rcases List.mem_append.mp hy with h | h
        · exact hall y h
        · simp at h; rw [h]; exact hx
    · refine ⟨[], ?_, by simp⟩
      rw [List.rdropWhile_concat_neg _ _ _ hx]
      simp

/-- The input is its trimmed form between two runs of white space. -/
theorem TrimSpace_decomp (s : List Char) :
    ∃ pre post, s = pre ++ TrimSpace s ++ post ∧ (∀ x ∈ pre, IsSpace x = true) ∧
      (∀ x ∈ post, IsSpace x = true) := by
  obtain ⟨t, ht, hall⟩ := rdropWhile_decomp IsSpace (s.dropWhile IsSpace)
  refine ⟨s.takeWhile IsSpace, t, ?_, ?_, hall⟩
  · unfold TrimSpace
    rw [List.append_assoc, ← ht, List.takeWhile_append_dropWhile]
  · intro x hx
    exact List.mem_takeWhile_imp hx

theorem space_not_brace (x : Char) (h : IsSpace x = true) :
    x ≠ '\x7b' ∧ x ≠ '\x7d' ∧ x ≠ '<' ∧ x ≠ '>' := by
  refine ⟨?_, ?_, ?_, ?_⟩ <;> (intro e; subst e; revert h; decide)

theorem stripMarkers_leading (pre s : List Char) (h : ∀ x ∈ pre, x ≠ '\x7b') :
    stripMarkers (pre ++ s) = pre ++ stripMarkers s := by
  induction pre with
  | nil => rfl
  | cons c cs ih =>
    have hc : c ≠ '\x7b' := h c (List.mem_cons_self _ _)
    have hcs : ∀ x ∈ cs, x ≠ '\x7b' := fun x hx => h x (List.mem_cons_of_mem _ hx)
    rw [List.cons_append, stripMarkers_cons_none _ _ (markerLen_ne_open _ _ hc), ih hcs]
    rfl

theorem dropWhile_notClose_append (r post : List Char) (hp : ∀ x ∈ post, x ≠ '\x7d')
    (h : '\x7d' ∉ r) : (r ++ post).dropWhile (fun ch => ch != '\x7d') = [] := by
  apply dropWhile_notClose_nil
  intro hm
  rcases List.mem_append.mp hm with h1 | h1
  · exact h h1
  · exact hp _ h1 rfl

/-- Brace-free text after the input does not change what is matched at its head. -/
theorem markerLen_append (s post : List Char) (hs : s ≠ [])
    (hp : ∀ x ∈ post, x ≠ '\x7b' ∧ x ≠ '\x7d') : markerLen (s ++ post) = markerLen s := by
  match s, hs with
  | [a], _ =>
    cases post with
    | nil => rfl
    | cons w ws =>
      have hw : w ≠ '\x7b' := (hp w (List.mem_cons_self _ _)).1
      simp [markerLen, hw]
  | a :: b :: r, _ =>
    simp only [List.cons_append, markerLen]
    by_cases hab : a = '\x7b' ∧ b = '\x7b'
    · simp only [hab, and_self, if_true]
      by_cases hr : '\x7d' ∈ r
      · obtain ⟨body, t, hrt, hbody⟩ : ∃ body t, r = body ++ '\x7d' :: t ∧ '\x7d' ∉ body := by
          refine ⟨r.takeWhile (fun ch => ch != '\x7d'),
            (r.dropWhile (fun ch => ch != '\x7d')).tail, ?_, ?_⟩
          · have hne : r.dropWhile (fun ch => ch != '\x7d') ≠ [] := by
              intro e
              rw [List.dropWhile_eq_nil_iff] at e
              have := e _ hr
              simp at this
            obtain ⟨y, ys, hy⟩ := List.exists_cons_of_ne_nil hne
            have hy0 : y = '\x7d' := by
              have := List.head_dropWhile_not (fun ch => ch != '\x7d') r hne
              simp only [hy, List.head_cons] at this
              simpa using this
            rw [hy, List.tail_cons]
            conv_lhs => rw [← List.takeWhile_append_dropWhile (fun ch => ch != '\x7d') r, hy, hy0]
          · intro hm
            have := List.mem_takeWhile_imp hm
            simp at this
        subst hrt
        rw [List.append_assoc, List.cons_append, dropWhile_notClose body _ hbody,
          dropWhile_notClose body _ hbody, takeWhile_notClose body _ hbody,
          takeWhile_notClose body _ hbody]
        cases t with
        | nil =>
          cases post with
          | nil => rfl
          | cons w ws =>
            have hw : w ≠ '\x7d' := (hp w (List.mem_cons_self _ _)).2
            simp [hw]
        | cons y t2 => rfl
      · rw [dropWhile_notClose_append r post (fun x hx => (hp x hx).2) hr,
          dropWhile_notClose_nil r hr]
    · simp only [hab, if_false]

theorem stripMarkers_trailing (s post : List Char)
    (hp : ∀ x ∈ post, x ≠ '\x7b' ∧ x ≠ '\x7d') :
    stripMarkers (s ++ post) = stripMarkers s ++ post := by
  suffices hall : ∀ (n : Nat) (s : List Char), s.length ≤ n →
      stripMarkers (s ++ post) = stripMarkers s ++ post from hall s.length s (Nat.le_refl _)
  intro n
  induction n with
  | zero =>
    intro s hs
    have : s = [] := List.eq_nil_of_length_eq_zero (Nat.le_zero.mp hs)
    subst this
    have := stripMarkers_leading post [] (fun x hx => (hp x hx).1)
    simpa [stripMarkers_nil] using this
  | succ n ih =>
    intro s hs
    cases s with
    | nil =>
      have := stripMarkers_leading post [] (fun x hx => (hp x hx).1)
      simpa [stripMarkers_nil] using this
    | cons c cs =>
      cases hm : markerLen (c :: cs) with
      | none =>
        have hm2 : markerLen (c :: (cs ++ post)) = none := by
          rw [← List.cons_append, markerLen_append _ _ (by simp) hp, hm]
        rw [List.cons_append, stripMarkers_cons_none _ _ hm2, stripMarkers_cons_none _ _ hm,
          ih cs (by simpa using hs)]
        rfl
      | some k =>
        obtain ⟨body, rest, hs2, hbody, _⟩ := markerLen_some _ _ hm
        rw [hs2] at hs ⊢
        have e : ('\x7b' :: '\x7b' :: (body ++ '\x7d' :: '\x7d' :: rest)) ++ post =
            '\x7b' :: '\x7b' :: (body ++ '\x7d' :: '\x7d' :: (rest ++ post)) := by simp
        rw [e, stripMarkers_marker _ _ hbody, stripMarkers_marker _ _ hbody]
        apply ih rest
        simp at hs
        omega

theorem counted_spaces (L : Lib) (ws : List Char) (h : ∀ x ∈ ws, IsSpace x = true) :
    counted L ws = [] := by
  unfold counted
  rw [List.filter_eq_nil_iff]
  intro x hx
  simp [h x hx]

theorem counted_append (L : Lib) (a b : List Char) :
    counted L (a ++ b) = counted L a ++ counted L b := by
  unfold counted
  exact List.filter_append _ _

/-- Validation of a text and of its trimmed form agree. -/
theorem ValidateTxtFile_TrimSpace (L : Lib) (c : List Char) :
    ValidateTxtFile L (TrimSpace c) = ValidateTxtFile L c := by
  obtain ⟨pre, post, hc, hpre, hpost⟩ := TrimSpace_decomp c
  have hstrip : stripMarkers c = pre ++ stripMarkers (TrimSpace c) ++ post := by
    conv_lhs => rw [hc]
    rw [stripMarkers_trailing _ _ (fun x hx =>
        ⟨(space_not_brace x (hpost x hx)).1, (space_not_brace x (hpost x hx)).2.1⟩),
      stripMarkers_leading _ _ (fun x hx => (space_not_brace x (hpre x hx)).1)]
  have hblank : TrimSpace (TrimSpace c) = [] ↔ TrimSpace c = [] := by
    rw [TrimSpace_eq_nil_iff, TrimSpace_eq_nil_iff]
    constructor
    · intro h x hx
      rw [hc] at hx
      simp only [List.mem_append] at hx
      rcases hx with (h1 | h1) | h1
      · exact hpre x h1
      · exact h x h1
      · exact hpost x h1
    · intro h x hx
      apply h
      rw [hc]
      simp [hx]
  have hmem : ∀ a : Char, IsSpace a = false →
      (a ∈ stripMarkers c ↔ a ∈ stripMarkers (TrimSpace c)) := by
    intro a ha
    rw [hstrip]
    simp only [List.mem_append]
    constructor
    · rintro ((h1 | h1) | h1)
      · rw [hpre a h1] at ha; cases ha
      · exact h1
      · rw [hpost a h1] at ha; cases ha
    · intro h1
      exact Or.inl (Or.inr h1)
  have hcount : counted L (stripMarkers c) = counted L (stripMarkers (TrimSpace c)) := by
    rw [hstrip, counted_append, counted_append, counted_spaces L pre hpre,
      counted_spaces L post hpost]
    simp
  have hx : ('<' ∈ stripMarkers c ∨ '>' ∈ stripMarkers c) ↔
      ('<' ∈ stripMarkers (TrimSpace c) ∨ '>' ∈ stripMarkers (TrimSpace c)) := by
    rw [hmem '<' (by decide), hmem '>' (by decide)]
  rw [ValidateTxtFile_eq, ValidateTxtFile_eq L c, hcount]
  by_cases hb : TrimSpace c = []
  · rw [if_pos hb, if_pos (hblank.mpr hb)]
  · rw [if_neg hb, if_neg (fun h => hb (hblank.mp h))]
    by_cases hy : '<' ∈ stripMarkers c ∨ '>' ∈ stripMarkers c
    · rw [if_pos hy, if_pos (hx.mp hy)]
    · rw [if_neg hy, if_neg (fun h => hy (hx.mpr h))]

/-! ## Newline normalisation -/

theorem crlf_cons_crlf (s : List Char) :
    ReplaceAll ('\r' :: '\n' :: s) "\r\n".toList "\n".toList =
      '\n' :: ReplaceAll s "\r\n".toList "\n".toList := by
  simp [ReplaceAll, ReplaceAllAux, List.isPrefixOf]

theorem crlf_cons_other (c : Char) (s : List Char) (h : ¬ (c = '\r' ∧ s.head? = some '\n')) :
    ReplaceAll (c :: s) "\r\n".toList "\n".toList =
      c :: ReplaceAll s "\r\n".toList "\n".toList := by
  cases s with
  | nil => simp [ReplaceAll, ReplaceAllAux, List.isPrefixOf]
  | cons d ds =>
    have h2 : ¬ ('\r' = c ∧ '\n' = d) := by
      rintro ⟨h1, h3⟩
      exact h ⟨h1.symm, by simp [← h3]⟩
    simp only [ReplaceAll, ReplaceAllAux, String.toList]
    have h3 : List.isPrefixOf ['\r', '\n'] (c :: d :: ds) = false := by
      simp [List.isPrefixOf]
      intro h4
      intro h5
      exact h2 ⟨h4, h5⟩
    simp [h3]

theorem toLF_nil : toLF [] = [] := by decide

theorem toLF_crlf (s : List Char) : toLF ('\r' :: '\n' :: s) = '\n' :: toLF s := by
  unfold toLF
  rw [crlf_cons_crlf]
  simp only [String.toList]
  rw [ReplaceAll_single, ReplaceAll_single]
  simp

theorem toLF_cr (s : List Char) (h : s.head? ≠ some '\n') : toLF ('\r' :: s) = '\n' :: toLF s := by
  unfold toLF
  rw [crlf_cons_other _ _ (fun hh => h hh.2)]
  simp only [String.toList]
  rw [ReplaceAll_single, ReplaceAll_single]
  simp

theorem toLF_other (c : Char) (s : List Char) (h : c ≠ '\r') : toLF (c :: s) = c :: toLF s := by
  unfold toLF
  rw [crlf_cons_other _ _ (fun hh => h hh.1)]
  simp only [String.toList]
  rw [ReplaceAll_single, ReplaceAll_single]
  simp [h]

theorem normalizeNewlines_eq (c : List Char) :
    normalizeNewlines c = (toLF c).flatMap (fun x => if x = '\n' then ['\r', '\n'] else [x]) := by
  unfold normalizeNewlines toLF
  simp only [String.toList]
  rw [ReplaceAll_single (ReplaceAll _ _ _) '\n']

/-- Induction along the three shapes a text can start with. -/
theorem toLF_cases (P : List Char → Prop) (hnil : P [])
    (hcrlf : ∀ s, P s → P ('\r' :: '\n' :: s))
    (hcr : ∀ s, s.head? ≠ some '\n' → P s → P ('\r' :: s))
    (hother : ∀ c s, c ≠ '\r' → P s → P (c :: s)) : ∀ s, P s := by
  intro s
  suffices hall : ∀ (n : Nat) (s : List Char), s.length ≤ n → P s from hall s.length s (Nat.le_refl _)
  intro n
  induction n with
  | zero =>
    intro s hs
    have : s = [] := List.eq_nil_of_length_eq_zero (Nat.le_zero.mp hs)
    rw [this]; exact hnil
  | succ n ih =>
    intro s hs
    match s, hs with
    | [], _ => exact hnil
    | c :: cs, hs =>
      have hcs : cs.length ≤ n := by simpa using hs
      by_cases hc : c = '\r'
      · subst hc
        by_cases hh : cs.head? = some '\n'
        · match cs, hh, hcs with
          | d :: ds, hh, hcs =>
            simp at hh
            subst hh
            apply hcrlf
            apply ih
            simp at hcs
            omega
        · exact hcr cs hh (ih cs hcs)
      · exact hother c cs hc (ih cs hcs)

theorem toLF_mem (s : List Char) : ∀ x ∈ toLF s, x ∈ s ∨ x = '\n' := by
  induction s using toLF_cases with
  | hnil => intro x hx; rw [toLF_nil] at hx; cases hx
  | hcrlf s ih =>
    intro x hx
    rw [toLF_crlf] at hx
    rcases List.mem_cons.mp hx with h | h
    · exact Or.inr h
    · rcases ih x h with h1 | h1
      · exact Or.inl (List.mem_cons_of_mem _ (List.mem_cons_of_mem _ h1))
      · exact Or.inr h1
  | hcr s hh ih =>
    intro x hx
    rw [toLF_cr s hh] at hx
    rcases List.mem_cons.mp hx with h | h
    · exact Or.inr h
    · rcases ih x h with h1 | h1
      · exact Or.inl (List.mem_cons_of_mem _ h1)
      · exact Or.inr h1
  | hother c s hc ih =>
    intro x hx
    rw [toLF_other c s hc] at hx
    rcases List.mem_cons.mp hx with h | h
    · exact Or.inl (by rw [h]; exact List.mem_cons_self _ _)
    · rcases ih x h with h1 | h1
      · exact Or.inl (List.mem_cons_of_mem _ h1)
      · exact Or.inr h1

theorem toLF_no_cr (s : List Char) : '\r' ∉ toLF s := by
  induction s using toLF_cases with
  | hnil => rw [toLF_nil]; simp
  | hcrlf s ih =>
    rw [toLF_crlf]
    intro h
    rcases List.mem_cons.mp h with h1 | h1
    · revert h1; decide
    · exact ih h1
  | hcr s hh ih =>
    rw [toLF_cr s hh]
    intro h
    rcases List.mem_cons.mp h with h1 | h1
    · revert h1; decide
    · exact ih h1
  | hother c s hc ih =>
    rw [toLF_other c s hc]
    intro h
    rcases List.mem_cons.mp h with h1 | h1
    · exact hc h1.symm
    · exact ih h1

theorem toLF_of_no_cr (s : List Char) (h : '\r' ∉ s) : toLF s = s := by
  induction s with
  | nil => exact toLF_nil
  | cons c cs ih =>
    have hc : c ≠ '\r' := fun e => h (by simp [e])
    rw [toLF_other c cs hc, ih (fun e => h (List.mem_cons_of_mem _ e))]

theorem decodeNewlines_crlf (z : List Char) (h : '\r' ∉ z) :
    decodeNewlines false (z.flatMap (fun x => if x = '\n' then ['\r', '\n'] else [x])) = z := by
  induction z with
  | nil => rfl
  | cons c cs ih =>
    have hc : c ≠ '\r' := fun e => h (by simp [e])
    have ih2 := ih (fun e => h (List.mem_cons_of_mem _ e))
    by_cases hn : c = '\n'
    · subst hn
      simp only [List.flatMap_cons, if_true, List.cons_append, List.nil_append]
      simp only [decodeNewlines, if_true, true_and]
      rw [ih2, if_neg (by decide)]
    · simp only [List.flatMap_cons, hn, if_false, List.cons_append, List.nil_append]
      simp only [decodeNewlines, hc, hn, if_false, and_false]
      rw [ih2]

theorem decodeNewlines_of_no_cr (z : List Char) (h : '\r' ∉ z) : decodeNewlines false z = z := by
  induction z with
  | nil => rfl
  | cons c cs ih =>
    have hc : c ≠ '\r' := fun e => h (by simp [e])
    simp only [decodeNewlines, hc, if_false, Bool.false_eq_true, false_and]
    rw [ih (fun e => h (List.mem_cons_of_mem _ e))]

/-! ## The decoder on escaped text -/

theorem textLoop_entity_name (q : Option Char) (name acc s : List Char)
    (hname : ∀ x ∈ name, isNameByte x = true) :
    textLoop q (.entity acc) (name ++ ';' :: s) = textLoop q (.entity (acc ++ name)) (';' :: s) := by
  induction name generalizing acc with
  | nil => simp
  | cons n ns ih =>
    have hn : isNameByte n = true := hname n (List.mem_cons_self _ _)
    rw [List.cons_append, textLoop]
    simp only [hn, if_true]
    rw [ih (acc ++ [n]) (fun x hx => hname x (List.mem_cons_of_mem _ hx))]
    simp

/-- An entity reference in running text is replaced by its character. -/
theorem textLoop_entity (q : Option Char) (b0 b1 r : Char) (name s d rest : List Char)
    (hq : q ≠ some '&') (hname : ∀ x ∈ name, isNameByte x = true)
    (he : entityChar name = some r)
    (hs : textLoop q (.plain (Char.ofNat 0) (Char.ofNat 0)) s = .ok (d, rest)) :
    textLoop q (.plain b0 b1) ('&' :: (name ++ ';' :: s)) = .ok (r :: d, rest) := by
  have h1 : ¬ (q = none ∧ b0 = ']' ∧ b1 = ']' ∧ '&' = '>') := by
    rintro ⟨_, _, _, h⟩
    revert h; decide
  have h2 : ¬ ('&' = '<') := by decide
  have h3 : ¬ (q = some '&') := hq
  rw [textLoop]
  simp only [h1, h2, h3, if_false, if_true]
  rw [textLoop_entity_name q name [] s hname, textLoop]
  have h4 : isNameByte ';' = false := by decide
  simp only [h4, List.nil_append, he, hs, if_true]
  simp

/-- A character that needs no escaping is copied, up to the rewriting of line ends. -/
theorem textLoop_plain (q : Option Char) (b0 b1 c : Char) (s d rest : List Char)
    (hq : q ≠ some c) (hlt : c ≠ '<') (hgt : c ≠ '>') (hamp : c ≠ '&')
    (hs : textLoop q (.plain b1 c) s = .ok (d, rest)) :
    textLoop q (.plain b0 b1) (c :: s) =
      .ok (if c = '\r' then '\n' :: d else if b1 = '\r' ∧ c = '\n' then d else c :: d, rest) := by
  have h1 : ¬ (q = none ∧ b0 = ']' ∧ b1 = ']' ∧ c = '>') := fun h => hgt h.2.2.2
  rw [textLoop]
  simp only [h1, hlt, hq, hamp, if_false, hs]
  split_ifs <;> rfl

theorem textLoop_escaped (q : Option Char) (attr : Bool) (term rest : List Char)
    (hq : q = none ∨ (q = some '\x22' ∧ attr = true))
    (hterm : ∀ b0 b1, textLoop q (.plain b0 b1) term = .ok ([], rest)) (y : List Char) :
    ∀ b0 b1, textLoop q (.plain b0 b1) (escapeChars attr y ++ term) =
      .ok (decodeNewlines (b1 == '\r') y, rest) := by
  have hqamp : q ≠ some '&' := by
    rcases hq with h | ⟨h, _⟩ <;> rw [h] <;> decide
  have hqlt : q ≠ some '<' := by
    rcases hq with h | ⟨h, _⟩ <;> rw [h] <;> decide
  have hqgt : q ≠ some '>' := by
    rcases hq with h | ⟨h, _⟩ <;> rw [h] <;> decide
  induction y with
  | nil =>
    intro b0 b1
    simpa [escapeChars, decodeNewlines] using hterm b0 b1
  | cons c cs ih =>
    intro b0 b1
    have key : ∀ r : Char, textLoop q (.plain (Char.ofNat 0) (Char.ofNat 0))
        (escapeChars attr cs ++ term) = .ok (decodeNewlines false cs, rest) := by
      intro _
      have := ih (Char.ofNat 0) (Char.ofNat 0)
      have h0 : (Char.ofNat 0 == '\r') = false := by decide
      rwa [h0] at this
    have hsplit : escapeChars attr (c :: cs) ++ term =
        escChar attr c ++ (escapeChars attr cs ++ term) := by
      simp [escapeChars]
    rw [hsplit]
    by_cases h1 : c = '&'
    · subst h1
      have e : escChar attr '&' = '&' :: ("amp".toList ++ [';']) := by
        unfold escChar; simp
      rw [e]
      have := textLoop_entity q b0 b1 '&' "amp".toList (escapeChars attr cs ++ term) _ _ hqamp
        (by decide) (by decide) (key '&')
      simpa [decodeNewlines] using this
    · by_cases h2 : c = '<'
      · subst h2
        have e : escChar attr '<' = '&' :: ("lt".toList ++ [';']) := by
          unfold escChar; simp
        rw [e]
        have := textLoop_entity q b0 b1 '<' "lt".toList (escapeChars attr cs ++ term) _ _ hqamp
          (by decide) (by decide) (key '<')
        simpa [decodeNewlines] using this
      · by_cases h3 : c = '>'
        · subst h3
          have e : escChar attr '>' = '&' :: ("gt".toList ++ [';']) := by
            unfold escChar; simp
          rw [e]
          have := textLoop_entity q b0 b1 '>' "gt".toList (escapeChars attr cs ++ term) _ _ hqamp
            (by decide) (by decide) (key '>')
          simpa [decodeNewlines] using this
        · by_cases h4 : attr = true ∧ c = '\x22'
          · obtain ⟨ha, hc⟩ := h4
            subst ha hc
            have e : escChar true '\x22' = '&' :: ("quot".toList ++ [';']) := by
              unfold escChar; decide
            rw [e]
            have := textLoop_entity q b0 b1 '\x22' "quot".toList
              (escapeChars true cs ++ term) _ _ hqamp (by decide) (by decide) (key '\x22')
            simpa [decodeNewlines] using this
          · have e : escChar attr c = [c] := by
              unfold escChar
              simp only [h1, h2, h3, h4, if_false]
            rw [e]
            have hqc : q ≠ some c := by
              rcases hq with h | ⟨h, ha⟩
              · rw [h]; simp
              · rw [h]
                intro hh
                exact h4 ⟨ha, (Option.some.inj hh).symm⟩
            have := textLoop_plain q b0 b1 c (escapeChars attr cs ++ term) _ _ hqc h2 h3 h1
              (ih b1 c)
            rw [List.singleton_append, this]
            congr 1
            by_cases hcr : c = '\r'
            · subst hcr
              simp [decodeNewlines]
            · by_cases hb : b1 = '\r' ∧ c = '\n'
              · simp [decodeNewlines, hcr, hb]
              · have hb2 : ¬ ((b1 == '\r') = true ∧ c = '\n') := by simpa using hb
                have hcr2 : (c == '\r') = false := by simpa using hcr
                simp only [decodeNewlines, hcr, hb, hb2, if_false, hcr2]

/-! ## The decoder on the serialised envelope -/

theorem isPrefixOf_append_self (p t : List Char) : p.isPrefixOf (p ++ t) = true := by
  induction p with
  | nil => simp [List.isPrefixOf]
  | cons a as ih => simp [List.isPrefixOf, ih]

theorem takeWhile_name (name : List Char) (c : Char) (t : List Char)
    (hall : ∀ x ∈ name, isNameByte x = true) (hc : isNameByte c = false) :
    (name ++ c :: t).takeWhile isNameByte = name ∧ (name ++ c :: t).dropWhile isNameByte = c :: t := by
  induction name with
  | nil => simp [List.takeWhile_cons, List.dropWhile_cons, hc]
  | cons n ns ih =>
    have hn : isNameByte n = true := hall n (List.mem_cons_self _ _)
    have ih2 := ih (fun x hx => hall x (List.mem_cons_of_mem _ hx))
    simp [List.takeWhile_cons, List.dropWhile_cons, hn, ih2.1, ih2.2]

theorem xmlName_eq (name : List Char) (c : Char) (t : List Char)
    (hall : ∀ x ∈ name, isNameByte x = true) (hc : isNameByte c = false)
    (hn : isAsciiName name = true) : xmlName (name ++ c :: t) = .ok (name, c :: t) := by
  obtain ⟨h1, h2⟩ := takeWhile_name name c t hall hc
  have hne : name ≠ [] := by
    intro e
    rw [e] at hn
    revert hn
    decide
  unfold xmlName
  simp only [h1, h2, hne, hn, if_false, if_true]

theorem xmlText_quoted (x rest : List Char)
    (hx : (decodeNewlines false x).all isInCharacterRange = true) :
    xmlText (some '\x22') (escapeChars true x ++ '\x22' :: rest) =
      .ok (decodeNewlines false x, rest) := by
  have hterm : ∀ b0 b1, textLoop (some '\x22') (.plain b0 b1) ('\x22' :: rest) = .ok ([], rest) := by
    intro b0 b1
    rw [textLoop]
    have h1 : ¬ (some '\x22' = none ∧ b0 = ']' ∧ b1 = ']' ∧ '\x22' = '>') := by
      rintro ⟨_, _, _, h⟩
      revert h; decide
    have h2 : ¬ ('\x22' = '<') := by decide
    simp only [h1, h2, if_false, if_true]
  have := textLoop_escaped (some '\x22') true _ rest (Or.inr ⟨rfl, rfl⟩) hterm x
    (Char.ofNat 0) (Char.ofNat 0)
  have h0 : (Char.ofNat 0 == '\r') = false := by decide
  rw [h0] at this
  unfold xmlText
  rw [this]
  simp only [hx, if_true]

theorem xmlText_content (y rest : List Char)
    (hy : (decodeNewlines false y).all isInCharacterRange = true) :
    xmlText none (escapeChars false y ++ '<' :: rest) =
      .ok (decodeNewlines false y, '<' :: rest) := by
  have hterm : ∀ b0 b1, textLoop none (.plain b0 b1) ('<' :: rest) = .ok ([], '<' :: rest) := by
    intro b0 b1
    rw [textLoop]
    have h1 : ¬ ((none : Option Char) = none ∧ b0 = ']' ∧ b1 = ']' ∧ '<' = '>') := by
      rintro ⟨_, _, _, h⟩
      revert h; decide
    simp [h1]
  have := textLoop_escaped none false _ ('<' :: rest) (Or.inl rfl) hterm y
    (Char.ofNat 0) (Char.ofNat 0)
  have h0 : (Char.ofNat 0 == '\r') = false := by decide
  rw [h0] at this
  unfold xmlText
  rw [this]
  simp only [hy, if_true]

/-- One round of the attribute loop on ` name="value"`. -/
theorem xmlAttrs_step (fuel : Nat) (name x rest : List Char) (n0 : Char) (ns : List Char)
    (hname : name = n0 :: ns)
    (hall : ∀ c ∈ name, isNameByte c = true) (hn : isAsciiName name = true)
    (hx : (decodeNewlines false x).all isInCharacterRange = true) :
    xmlAttrs (fuel + 1) (' ' :: (name ++ '=' :: '\x22' :: (escapeChars true x ++ '\x22' :: rest))) =
      match xmlAttrs fuel rest with
      | .error e => .error e
      | .ok (more, closed, s5) => .ok ((name, decodeNewlines false x) :: more, closed, s5) := by
  have hn0 : isNameByte n0 = true := hall n0 (by rw [hname]; exact List.mem_cons_self _ _)
  have hsp : xmlSpace (' ' :: (name ++ '=' :: '\x22' :: (escapeChars true x ++ '\x22' :: rest))) =
      n0 :: (ns ++ '=' :: '\x22' :: (escapeChars true x ++ '\x22' :: rest)) := by
    have h1 : (n0 == ' ' || n0 == '\r' || n0 == '\n' || n0 == '\t') = false := by
      have e1 : n0 ≠ ' ' := by intro h; subst h; revert hn0; decide
      have e2 : n0 ≠ '\r' := by intro h; subst h; revert hn0; decide
      have e3 : n0 ≠ '\n' := by intro h; subst h; revert hn0; decide
      have e4 : n0 ≠ '\t' := by intro h; subst h; revert hn0; decide
      simp [e1, e2, e3, e4]
    rw [hname]
    simp [xmlSpace, List.dropWhile_cons, h1]
  have hslash : n0 ≠ '/' := by
    intro h; subst h; revert hn0; decide
  have hgt : n0 ≠ '>' := by
    intro h; subst h; revert hn0; decide
  have hnm : xmlName (n0 :: (ns ++ '=' :: '\x22' :: (escapeChars true x ++ '\x22' :: rest))) =
      .ok (name, '=' :: '\x22' :: (escapeChars true x ++ '\x22' :: rest)) := by
    have := xmlName_eq name '=' ('\x22' :: (escapeChars true x ++ '\x22' :: rest)) hall
      (by decide) hn
    rw [hname] at this ⊢
    exact this
  have hsp2 : xmlSpace ('=' :: '\x22' :: (escapeChars true x ++ '\x22' :: rest)) =
      '=' :: '\x22' :: (escapeChars true x ++ '\x22' :: rest) := by
    simp [xmlSpace, List.dropWhile_cons]
  have hsp3 : xmlSpace ('\x22' :: (escapeChars true x ++ '\x22' :: rest)) =
      '\x22' :: (escapeChars true x ++ '\x22' :: rest) := by
    simp [xmlSpace, List.dropWhile_cons]
  rw [xmlAttrs, hsp]
  simp only [hslash, hgt, if_false, hnm, hsp2, hsp3, ne_eq, not_true_eq_false, true_or, if_true,
    xmlText_quoted x rest hx]

theorem xmlAttrs_close (fuel : Nat) (rest : List Char) :
    xmlAttrs (fuel + 1) ('>' :: rest) = .ok ([], false, rest) := by
  rw [xmlAttrs]
  simp [xmlSpace, List.dropWhile_cons]

theorem xmlEndTag_wenshi (x : wenshiXML) (data : List Char) :
    xmlEndTag x data "</wenshi>".toList = .ok { x with Content := data } := by
  have hnm : xmlName ("wenshi".toList ++ '>' :: []) = .ok ("wenshi".toList, ['>']) :=
    xmlName_eq _ _ _ (by decide) (by decide) (by decide)
  have e : "</wenshi>".toList = '<' :: '/' :: ("wenshi".toList ++ '>' :: []) := by decide
  rw [e]
  simp only [xmlEndTag, ne_eq, not_true_eq_false, if_false, hnm]
  simp [xmlSpace, List.dropWhile_cons]

/-- The attribute loop on the three attributes written by `SerializeWenFile`. -/
theorem xmlAttrs_envelope (fuel : Nat) (hf : 4 ≤ fuel) (ca ma rest : List Char)
    (hca : (decodeNewlines false ca).all isInCharacterRange = true)
    (hma : (decodeNewlines false ma).all isInCharacterRange = true) :
    xmlAttrs fuel (' ' ::
        ("ver".toList ++ '=' :: '\x22' :: (escapeChars true "1.0".toList ++ '\x22' :: ' ' ::
        ("createdAt".toList ++ '=' :: '\x22' :: (escapeChars true ca ++ '\x22' :: ' ' ::
        ("modifiedAt".toList ++ '=' :: '\x22' :: (escapeChars true ma ++ '\x22' :: '>' ::
        rest))))))) =
      .ok ([("ver".toList, decodeNewlines false "1.0".toList),
            ("createdAt".toList, decodeNewlines false ca),
            ("modifiedAt".toList, decodeNewlines false ma)], false, rest) := by
  obtain ⟨k, rfl⟩ : ∃ k, fuel = k + 4 := ⟨fuel - 4, by omega⟩
  rw [xmlAttrs_step (k + 3) "ver".toList "1.0".toList _ 'v' "er".toList rfl (by decide)
      (by decide) (by decide),
    xmlAttrs_step (k + 2) "createdAt".toList ca _ 'c' "reatedAt".toList rfl (by decide)
      (by decide) hca,
    xmlAttrs_step (k + 1) "modifiedAt".toList ma _ 'm' "odifiedAt".toList rfl (by decide)
      (by decide) hma,
    xmlAttrs_close]

/-- The decoder reads back the three attribute values and the character data of an
envelope built by `sprintfEnvelope` from escaped parts. -/
theorem xmlUnmarshal_envelope (ca ma y : List Char)
    (hca : (decodeNewlines false ca).all isInCharacterRange = true)
    (hma : (decodeNewlines false ma).all isInCharacterRange = true)
    (hy : (decodeNewlines false y).all isInCharacterRange = true) :
    xmlUnmarshal (sprintfEnvelope "1.0".toList (escapeChars true ca) (escapeChars true ma)
        (escapeChars false y)) =
      .ok { Ver := "1.0".toList, CreatedAt := decodeNewlines false ca,
            ModifiedAt := decodeNewlines false ma, Content := decodeNewlines false y } := by
  have hver : "1.0".toList = escapeChars true "1.0".toList := by decide
  have henv : sprintfEnvelope "1.0".toList (escapeChars true ca) (escapeChars true ma)
      (escapeChars false y) =
      xmlDecl ++ (escapeChars false ['\n'] ++ '<' :: ("wenshi".toList ++ ' ' ::
        ("ver".toList ++ '=' :: '\x22' :: (escapeChars true "1.0".toList ++ '\x22' :: ' ' ::
        ("createdAt".toList ++ '=' :: '\x22' :: (escapeChars true ca ++ '\x22' :: ' ' ::
        ("modifiedAt".toList ++ '=' :: '\x22' :: (escapeChars true ma ++ '\x22' :: '>' ::
        (escapeChars false y ++ '<' :: "/wenshi>".toList))))))))) := by
    rw [← hver]
    have e1 : escapeChars false ['\n'] = ['\n'] := by decide
    rw [e1]
    simp [sprintfEnvelope, xmlDecl]
  rw [henv]
  unfold xmlUnmarshal
  simp only [isPrefixOf_append_self, if_true, List.drop_left]
  rw [xmlText_content ['\n'] _ (by decide)]
  simp only
  rw [xmlName_eq "wenshi".toList ' ' _ (by decide) (by decide) (by decide)]
  simp only
  rw [xmlAttrs_envelope _ (by simp only [List.length_cons, List.length_append]; omega) _ _ _ hca hma]
  simp only [ne_eq, not_true_eq_false, if_false, Bool.false_eq_true]
  rw [xmlText_content y _ hy]
  simp only
  rw [show ('<' :: "/wenshi>".toList) = "</wenshi>".toList from rfl, xmlEndTag_wenshi]
  have h1 : decodeNewlines false ['1', '.', '0'] = ['1', '.', '0'] := by decide
  simp [assignAttrs, h1]

/-! ## Validation does not depend on the style of line ends -/

theorem toLF_head_ne (x : Char) (t : List Char) (hx : x ≠ '\n') (ht : t.head? ≠ some x) :
    (toLF t).head? ≠ some x := by
  cases t with
  | nil => rw [toLF_nil]; simp
  | cons c cs =>
    by_cases hc : c = '\r'
    · subst hc
      by_cases hh : cs.head? = some '\n'
      · match cs, hh with
        | d :: ds, hh =>
          simp at hh
          subst hh
          rw [toLF_crlf]
          simp
          exact fun e => hx e.symm
      · rw [toLF_cr cs hh]
        simp
        exact fun e => hx e.symm
    · rw [toLF_other c cs hc]
      simpa using ht

theorem toLF_append_cons (a : List Char) (x : Char) (t : List Char) (hx : x ≠ '\n') :
    toLF (a ++ x :: t) = toLF a ++ toLF (x :: t) := by
  induction a using toLF_cases with
  | hnil => rw [toLF_nil]; rfl
  | hcrlf s ih =>
    rw [List.cons_append, List.cons_append, toLF_crlf, toLF_crlf, ih]
    rfl
  | hcr s hh ih =>
    have hh2 : (s ++ x :: t).head? ≠ some '\n' := by
      cases s with
      | nil => simpa using hx
      | cons d ds => simpa using hh
    rw [List.cons_append, toLF_cr _ hh2, toLF_cr s hh, ih]
    rfl
  | hother c s hc ih =>
    rw [List.cons_append, toLF_other c _ hc, toLF_other c s hc, ih]
    rfl

theorem toLF_mem_rev (s : List Char) : ∀ x ∈ s, x ∈ toLF s ∨ x = '\r' := by
  induction s using toLF_cases with
  | hnil => intro x hx; cases hx
  | hcrlf s ih =>
    intro x hx
    rw [toLF_crlf]
    rcases List.mem_cons.mp hx with h | h
    · exact Or.inr h
    · rcases List.mem_cons.mp h with h1 | h1
      · exact Or.inl (by rw [h1]; exact List.mem_cons_self _ _)
      · rcases ih x h1 with h2 | h2
        · exact Or.inl (List.mem_cons_of_mem _ h2)
        · exact Or.inr h2
  | hcr s hh ih =>
    intro x hx
    rw [toLF_cr s hh]
    rcases List.mem_cons.mp hx with h | h
    · exact Or.inr h
    · rcases ih x h with h2 | h2
      · exact Or.inl (List.mem_cons_of_mem _ h2)
      · exact Or.inr h2
  | hother c s hc ih =>
    intro x hx
    rw [toLF_other c s hc]
    rcases List.mem_cons.mp hx with h | h
    · exact Or.inl (by rw [h]; exact List.mem_cons_self _ _)
    · rcases ih x h with h2 | h2
      · exact Or.inl (List.mem_cons_of_mem _ h2)
      · exact Or.inr h2

/-- Whether the first closing brace of the input is followed by a second one. -/
theorem markerLen_none_iff (r : List Char) :
    markerLen ('\x7b' :: '\x7b' :: r) = none ↔
      ∀ body t, r = body ++ '\x7d' :: t → '\x7d' ∉ body → t.head? ≠ some '\x7d' := by
  constructor
  · intro h body t hr hbody ht
    cases t with
    | nil => simp at ht
    | cons y t2 =>
      simp at ht
      subst ht
      rw [hr, markerLen_marker body t2 hbody] at h
      cases h
  · intro h
    cases hm : markerLen ('\x7b' :: '\x7b' :: r) with
    | none => rfl
    | some k =>
      obtain ⟨body, rest, hs, hbody, _⟩ := markerLen_some _ _ hm
      have hr : r = body ++ '\x7d' :: '\x7d' :: rest := by
        simpa using hs
      exact absurd rfl (h body ('\x7d' :: rest) hr hbody)

theorem toLF_split_close (r body' t' : List Char) (h : toLF r = body' ++ '\x7d' :: t')
    (hb : '\x7d' ∉ body') :
    ∃ body t, r = body ++ '\x7d' :: t ∧ '\x7d' ∉ body ∧ t' = toLF t := by
  induction r using toLF_cases generalizing body' with
  | hnil => rw [toLF_nil] at h; simp at h
  | hcrlf s ih =>
    rw [toLF_crlf] at h
    cases body' with
    | nil => simp at h
    | cons b bs =>
      simp only [List.cons_append, List.cons.injEq] at h
      obtain ⟨body, t, hs, hbody, ht⟩ := ih bs h.2 (fun e => hb (List.mem_cons_of_mem _ e))
      refine ⟨'\r' :: '\n' :: body, t, by rw [hs]; rfl, ?_, ht⟩
      simp only [List.mem_cons, not_or]
      exact ⟨by decide, by decide, hbody⟩
  | hcr s hh ih =>
    rw [toLF_cr s hh] at h
    cases body' with
    | nil => simp at h
    | cons b bs =>
      simp only [List.cons_append, List.cons.injEq] at h
      obtain ⟨body, t, hs, hbody, ht⟩ := ih bs h.2 (fun e => hb (List.mem_cons_of_mem _ e))
      refine ⟨'\r' :: body, t, by rw [hs]; rfl, ?_, ht⟩
      simp only [List.mem_cons, not_or]
      exact ⟨by decide, hbody⟩
  | hother c s hc ih =>
    rw [toLF_other c s hc] at h
    cases body' with
    | nil =>
      simp only [List.nil_append, List.cons.injEq] at h
      exact ⟨[], s, by rw [h.1]; rfl, by simp, h.2.symm⟩
    | cons b bs =>
      simp only [List.cons_append, List.cons.injEq] at h
      obtain ⟨body, t, hs, hbody, ht⟩ := ih bs h.2 (fun e => hb (List.mem_cons_of_mem _ e))
      refine ⟨c :: body, t, by rw [hs]; rfl, ?_, ht⟩
      simp only [List.mem_cons, not_or]
      refine ⟨?_, hbody⟩
      rw [h.1]
      exact fun e => hb (by rw [e]; exact List.mem_cons_self _ _)

theorem toLF_open (s t : List Char) (h : toLF s = '\x7b' :: t) :
    ∃ r, s = '\x7b' :: r ∧ t = toLF r := by
  cases s with
  | nil => rw [toLF_nil] at h; cases h
  | cons c cs =>
    by_cases hc : c = '\r'
    · subst hc
      by_cases hh : cs.head? = some '\n'
      · match cs, hh with
        | d :: ds, hh =>
          simp at hh
          subst hh
          rw [toLF_crlf] at h
          simp at h
      · rw [toLF_cr cs hh] at h
        simp at h
    · rw [toLF_other c cs hc] at h
      simp only [List.cons.injEq] at h
      exact ⟨cs, by rw [h.1], h.2.symm⟩

/-- Where nothing is matched, nothing is matched after newline normalisation either. -/
theorem markerLen_toLF_none (s : List Char) (h : markerLen s = none) :
    markerLen (toLF s) = none := by
  cases hm : markerLen (toLF s) with
  | none => rfl
  | some k =>
    exfalso
    obtain ⟨body', rest', hs, hbody', _⟩ := markerLen_some _ _ hm
    obtain ⟨s1, hs1, ht1⟩ := toLF_open s _ hs
    obtain ⟨r, hs2, ht2⟩ := toLF_open s1 _ ht1.symm
    obtain ⟨body, t, hr, hbody, ht⟩ := toLF_split_close r body' ('\x7d' :: rest') ht2.symm hbody'
    rw [hs1, hs2] at h
    have hne := (markerLen_none_iff r).mp h body t hr hbody
    have := toLF_head_ne '\x7d' t (by decide) hne
    rw [← ht] at this
    simp at this

theorem toLF_marker (body rest : List Char) :
    toLF ('\x7b' :: '\x7b' :: (body ++ '\x7d' :: '\x7d' :: rest)) =
      '\x7b' :: '\x7b' :: (toLF body ++ '\x7d' :: '\x7d' :: toLF rest) := by
  rw [toLF_other _ _ (by decide), toLF_other _ _ (by decide),
    toLF_append_cons body _ _ (by decide), toLF_other _ _ (by decide),
    toLF_other _ _ (by decide)]

/-- The stripped text without its white space. -/
theorem stripped_visible_toLF (c : List Char) :
    (stripMarkers (toLF c)).filter (fun x => !IsSpace x) =
      (stripMarkers c).filter (fun x => !IsSpace x) := by
  suffices hall : ∀ (n : Nat) (c : List Char), c.length ≤ n →
      (stripMarkers (toLF c)).filter (fun x => !IsSpace x) =
        (stripMarkers c).filter (fun x => !IsSpace x) from hall c.length c (Nat.le_refl _)
  intro n
  induction n with
  | zero =>
    intro c hc
    have : c = [] := List.eq_nil_of_length_eq_zero (Nat.le_zero.mp hc)
    rw [this, toLF_nil]
  | succ n ih =>
    intro c hc
    cases c with
    | nil => rw [toLF_nil]
    | cons x cs =>
      have hcs : cs.length ≤ n := by simpa using hc
      cases hm : markerLen (x :: cs) with
      | some k =>
        obtain ⟨body, rest, hs, hbody, _⟩ := markerLen_some _ _ hm
        have hbody2 : '\x7d' ∉ toLF body := by
          intro e
          rcases toLF_mem body _ e with h1 | h1
          · exact hbody h1
          · revert h1; decide
        rw [hs, toLF_marker, stripMarkers_marker _ _ hbody2, stripMarkers_marker _ _ hbody]
        apply ih
        rw [hs] at hc
        simp at hc
        omega
      | none =>
        rw [stripMarkers_cons_none _ _ hm]
        have hm2 := markerLen_toLF_none _ hm
        by_cases hx : x = '\r'
        · subst hx
          by_cases hh : cs.head? = some '\n'
          · match cs, hh, hcs with
            | d :: ds, hh, hcs =>
              simp at hh
              subst hh
              rw [toLF_crlf, stripMarkers_cons_none _ _ (markerLen_ne_open _ _ (by decide)),
                stripMarkers_cons_none _ _ (markerLen_ne_open _ _ (by decide)),
                List.filter_cons_of_neg (by decide), List.filter_cons_of_neg (by decide),
                List.filter_cons_of_neg (by decide)]
              apply ih
              simp at hcs
              omega
          · rw [toLF_cr cs hh, stripMarkers_cons_none _ _ (markerLen_ne_open _ _ (by decide)),
              List.filter_cons_of_neg (by decide), List.filter_cons_of_neg (by decide)]
            exact ih cs hcs
        · rw [toLF_other x cs hx] at hm2 ⊢
          rw [stripMarkers_cons_none _ _ hm2]
          simp only [List.filter_cons, ih cs hcs]

theorem counted_visible (L : Lib) (s : List Char) :
    counted L (s.filter (fun x => !IsSpace x)) = counted L s := by
  unfold counted
  rw [List.filter_filter]
  congr 1
  funext x
  cases IsSpace x <;> simp

/-- Validation of a text and of its form with LF line ends agree. -/
theorem ValidateTxtFile_toLF (L : Lib) (c : List Char) :
    ValidateTxtFile L (toLF c) = ValidateTxtFile L c := by
  have hvis := stripped_visible_toLF c
  have hblank : TrimSpace (toLF c) = [] ↔ TrimSpace c = [] := by
    rw [TrimSpace_eq_nil_iff, TrimSpace_eq_nil_iff]
    constructor
    · intro h x hx
      rcases toLF_mem_rev c x hx with h1 | h1
      · exact h x h1
      · rw [h1]; decide
    · intro h x hx
      rcases toLF_mem c x hx with h1 | h1
      · exact h x h1
      · rw [h1]; decide
  have hmem : ∀ a : Char, IsSpace a = false →
      (a ∈ stripMarkers (toLF c) ↔ a ∈ stripMarkers c) := by
    intro a ha
    have h1 : ∀ s : List Char, a ∈ s ↔ a ∈ s.filter (fun x => !IsSpace x) := by
      intro s
      simp [List.mem_filter, ha]
    rw [h1 (stripMarkers (toLF c)), h1 (stripMarkers c), hvis]
  have hcount : counted L (stripMarkers (toLF c)) = counted L (stripMarkers c) := by
    rw [← counted_visible L (stripMarkers (toLF c)), ← counted_visible L (stripMarkers c), hvis]
  have hx : ('<' ∈ stripMarkers (toLF c) ∨ '>' ∈ stripMarkers (toLF c)) ↔
      ('<' ∈ stripMarkers c ∨ '>' ∈ stripMarkers c) := by
    rw [hmem '<' (by decide), hmem '>' (by decide)]
  rw [ValidateTxtFile_eq, ValidateTxtFile_eq L c, hcount]
  by_cases hb : TrimSpace c = []
  · rw [if_pos hb, if_pos (hblank.mpr hb)]
  · rw [if_neg hb, if_neg (fun h => hb (hblank.mp h))]
    by_cases hy : '<' ∈ stripMarkers c ∨ '>' ∈ stripMarkers c
    · rw [if_pos hy, if_pos (hx.mpr hy)]
    · rw [if_neg hy, if_neg (fun h => hy (hx.mp h))]

/-! ## Round trip -/

theorem decodeNewlines_normalizeNewlines (c : List Char) :
    decodeNewlines false (normalizeNewlines c) = toLF c := by
  rw [normalizeNewlines_eq, decodeNewlines_crlf _ (toLF_no_cr c)]

/-- Parsing what `SerializeWenFile` wrote. -/
theorem ParseWenFile_envelope (L : Lib) (c ca ma : List Char)
    (hv : (ValidateTxtFile L c).IsValid = true) (hca : ca ≠ []) (hma : ma ≠ [])
    (hpc : L.ParseTime ca = true) (hpm : L.ParseTime ma = true)
    (hc : ∀ x ∈ c, isInCharacterRange x = true)
    (hcx : ∀ x ∈ ca, isInCharacterRange x = true ∧ x ≠ '\r')
    (hmx : ∀ x ∈ ma, isInCharacterRange x = true ∧ x ≠ '\r') :
    ParseWenFile L xmlUnmarshal
        (sprintfEnvelope "1.0".toList (escapeChars true ca) (escapeChars true ma)
          (escapeChars false (normalizeNewlines c))) =
      ({ Ver := "1.0".toList, CreatedAt := ca, ModifiedAt := ma,
         Content := TrimSpace (toLF c) }, none) := by
  have hca2 : decodeNewlines false ca = ca :=
    decodeNewlines_of_no_cr ca (fun e => (hcx _ e).2 rfl)
  have hma2 : decodeNewlines false ma = ma :=
    decodeNewlines_of_no_cr ma (fun e => (hmx _ e).2 rfl)
  have hdec := xmlUnmarshal_envelope ca ma (normalizeNewlines c)
    (by rw [hca2, List.all_eq_true]; exact fun x hx => (hcx x hx).1)
    (by rw [hma2, List.all_eq_true]; exact fun x hx => (hmx x hx).1)
    (by
      rw [decodeNewlines_normalizeNewlines, List.all_eq_true]
      intro x hx
      rcases toLF_mem c x hx with h | h
      · exact hc x h
      · rw [h]; decide)
  rw [hca2, hma2, decodeNewlines_normalizeNewlines] at hdec
  unfold ParseWenFile
  rw [hdec]
  have hver : ¬ ("1.0".toList = []) := by decide
  simp only [hver, hca, hma, hpc, hpm, ValidateTxtFile_toLF, hv, if_false, Bool.not_true,
    Bool.false_eq_true]

/-! ## Error texts -/

theorem str_append_cancel (p a b : String) (h : p ++ a = p ++ b) : a = b := by
  have h1 := congrArg String.data h
  simp only [String.data_append] at h1
  exact String.ext (List.append_cancel_left h1)

theorem createdAt_msg_ne (r : String) :
    "Invalid timestamp format in 'createdAt'" ≠ "Invalid content: " ++ r := by
  intro h
  have h1 := congrArg String.data h
  simp at h1

theorem modifiedAt_msg_ne (r : String) :
    "Invalid timestamp format in 'modifiedAt'" ≠ "Invalid content: " ++ r := by
  intro h
  have h1 := congrArg String.data h
  simp at h1

/-! ## The claims -/

/-- C1 (amended): a valid content made of characters XML allows, serialised with two
non-empty RFC 3339 timestamps (made of such characters other than CR), is written
without error and parsed back without error into the version 1.0, the two timestamps
and the content with every CRLF and every lone CR turned into LF and then trimmed; a
content without CR thus comes back as its trimmed form. -/
theorem C1_round_trip_amended (L : Lib) (now c ca ma : List Char)
    (hv : (ValidateTxtFile L c).IsValid = true) (hca : ca ≠ []) (hma : ma ≠ [])
    (hpc : L.ParseTime ca = true) (hpm : L.ParseTime ma = true)
    (hc : ∀ x ∈ c, isInCharacterRange x = true)
    (hcx : ∀ x ∈ ca, isInCharacterRange x = true ∧ x ≠ '\r')
    (hmx : ∀ x ∈ ma, isInCharacterRange x = true ∧ x ≠ '\r') :
    (∃ s, SerializeWenFile L now c ca ma = (s, none) ∧
      ParseWenFile L xmlUnmarshal s =
        ({ Ver := "1.0".toList, CreatedAt := ca, ModifiedAt := ma,
           Content := TrimSpace (toLF c) }, none)) ∧
    ('\r' ∉ c → TrimSpace (toLF c) = TrimSpace c) := by
  refine ⟨⟨_, SerializeWenFile_ok L now c ca ma hv hca hma hpc hpm,
    ParseWenFile_envelope L c ca ma hv hca hma hpc hpm hc hcx hmx⟩, ?_⟩
  intro h
  rw [toLF_of_no_cr c h]

/-- Witness of C1 (amended): a content with mixed line ends and an annotation holding
markup. -/
theorem C1_round_trip_amended_witness :
    (ValidateTxtFile goLib "你好\r\n世界\r\x7b\x7b<a&b>\x7d\x7d。\n".toList).IsValid = true ∧
    (∃ s, SerializeWenFile goLib [] "你好\r\n世界\r\x7b\x7b<a&b>\x7d\x7d。\n".toList
          "2024-01-15T10:30:00Z".toList "2024-02-29T23:59:59.5+08:00".toList = (s, none) ∧
      ParseWenFile goLib xmlUnmarshal s =
        ({ Ver := "1.0".toList, CreatedAt := "2024-01-15T10:30:00Z".toList,
           ModifiedAt := "2024-02-29T23:59:59.5+08:00".toList,
           Content := TrimSpace (toLF "你好\r\n世界\r\x7b\x7b<a&b>\x7d\x7d。\n".toList) }, none)) :=
  ⟨by decide!,
    (C1_round_trip_amended goLib [] "你好\r\n世界\r\x7b\x7b<a&b>\x7d\x7d。\n".toList
      "2024-01-15T10:30:00Z".toList "2024-02-29T23:59:59.5+08:00".toList
      (by decide!) (by decide) (by decide) (by decide) (by decide) (by decide) (by decide)
      (by decide)).1⟩

/-- Counterexample to C1 as stated: the valid content with a lone CR between two CJK
characters is parsed back with an LF in its place, which is not its trimmed form; and a
valid content holding the control character U+0001 is serialised into a text that
`ParseWenFile` rejects. -/
theorem C1_round_trip_counterexample :
    ((ValidateTxtFile goLib "你\r好".toList).IsValid = true ∧
      goLib.ParseTime "2024-01-15T10:30:00Z".toList = true ∧
      (SerializeWenFile goLib [] "你\r好".toList "2024-01-15T10:30:00Z".toList
        "2024-01-15T10:30:00Z".toList).2 = none ∧
      ParseWenFile goLib xmlUnmarshal
          (SerializeWenFile goLib [] "你\r好".toList "2024-01-15T10:30:00Z".toList
            "2024-01-15T10:30:00Z".toList).1 =
        ({ Ver := "1.0".toList, CreatedAt := "2024-01-15T10:30:00Z".toList,
           ModifiedAt := "2024-01-15T10:30:00Z".toList, Content := "你\n好".toList }, none) ∧
      "你\n好".toList ≠ TrimSpace "你\r好".toList) ∧
    ((ValidateTxtFile goLib ['你', Char.ofNat 1]).IsValid = true ∧
      (SerializeWenFile goLib [] ['你', Char.ofNat 1] "2024-01-15T10:30:00Z".toList
        "2024-01-15T10:30:00Z".toList).2 = none ∧
      (ParseWenFile goLib xmlUnmarshal
          (SerializeWenFile goLib [] ['你', Char.ofNat 1] "2024-01-15T10:30:00Z".toList
            "2024-01-15T10:30:00Z".toList).1).2 ≠ none) := by
  decide!

/-- C2: with a non-blank text whose stripped form has no angle bracket and at least one
counted character, the outcome is valid exactly when twice the number of counted
characters in the four CJK ranges reaches the number of counted characters (so an exact
half is valid), and is the 50% reason otherwise. -/
theorem C2_half_threshold (L : Lib) (text : List Char)
    (hne : TrimSpace text ≠ [])
    (hlt : '<' ∉ stripMarkers text) (hgt : '>' ∉ stripMarkers text)
    (htotal : 1 ≤ (counted L (stripMarkers text)).length) :
    (2 * ((counted L (stripMarkers text)).filter (fun r =>
          decide ((0x4E00 ≤ r.toNat ∧ r.toNat ≤ 0x9FFF) ∨ (0x3400 ≤ r.toNat ∧ r.toNat ≤ 0x4DBF) ∨
            (0x20000 ≤ r.toNat ∧ r.toNat ≤ 0x2A6DF) ∨
            (0xF900 ≤ r.toNat ∧ r.toNat ≤ 0xFAFF)))).length
        ≥ (counted L (stripMarkers text)).length →
      ValidateTxtFile L text = { IsValid := true, ErrorMessage := "" }) ∧
    (2 * ((counted L (stripMarkers text)).filter (fun r =>
          decide ((0x4E00 ≤ r.toNat ∧ r.toNat ≤ 0x9FFF) ∨ (0x3400 ≤ r.toNat ∧ r.toNat ≤ 0x4DBF) ∨
            (0x20000 ≤ r.toNat ∧ r.toNat ≤ 0x2A6DF) ∨
            (0xF900 ≤ r.toNat ∧ r.toNat ≤ 0xFAFF)))).length
        < (counted L (stripMarkers text)).length →
      ValidateTxtFile L text =
        { IsValid := false, ErrorMessage := "File must contain at least 50% CJK characters" }) := by
  have hfun : (fun r : Char =>
      decide ((0x4E00 ≤ r.toNat ∧ r.toNat ≤ 0x9FFF) ∨ (0x3400 ≤ r.toNat ∧ r.toNat ≤ 0x4DBF) ∨
        (0x20000 ≤ r.toNat ∧ r.toNat ≤ 0x2A6DF) ∨
        (0xF900 ≤ r.toNat ∧ r.toNat ≤ 0xFAFF))) = isCJK := by
    funext r
    simp only [isCJK, ge_iff_le, Bool.decide_or, Bool.decide_and, Bool.or_assoc]
  rw [hfun, ValidateTxtFile_eq]
  have h0 : ¬ (counted L (stripMarkers text)).length = 0 := by omega
  have hx : ¬ ('<' ∈ stripMarkers text ∨ '>' ∈ stripMarkers text) := by
    rintro (h | h)
    · exact hlt h
    · exact hgt h
  simp only [hne, hx, h0, if_false]
  constructor
  · intro h
    rw [if_neg (by omega)]
  · intro h
    rw [if_pos h]

/-- Witness of C2: two CJK characters with two Latin letters are valid, with three they
are not. -/
theorem C2_half_threshold_witness :
    ValidateTxtFile goLib "你好ab".toList = { IsValid := true, ErrorMessage := "" } ∧
      ValidateTxtFile goLib "你好abc".toList =
        { IsValid := false, ErrorMessage := "File must contain at least 50% CJK characters" } :=
  ⟨(C2_half_threshold goLib "你好ab".toList (by decide) (by decide) (by decide) (by decide)).1
      (by decide),
    (C2_half_threshold goLib "你好abc".toList (by decide) (by decide) (by decide) (by decide)).2
      (by decide)⟩

/-- C3: a text that is blank after trimming is rejected as empty; otherwise an angle
bracket left in the stripped text gives the XML-tag reason, whatever the characters of
the text are. -/
theorem C3_check_precedence (L : Lib) (text : List Char) :
    (TrimSpace text = [] →
      ValidateTxtFile L text = { IsValid := false, ErrorMessage := "File is empty" }) ∧
    (TrimSpace text ≠ [] → ('<' ∈ stripMarkers text ∨ '>' ∈ stripMarkers text) →
      ValidateTxtFile L text =
        { IsValid := false,
          ErrorMessage := "File contains XML tags (< or >) which are not allowed in .txt files" }) := by
  rw [ValidateTxtFile_eq]
  constructor
  · intro h
    rw [if_pos h]
  · intro h1 h2
    rw [if_neg h1, if_pos h2]

/-- Witness of C3: a blank text, and texts with a bracket but no counted character or
no CJK character at all. -/
theorem C3_check_precedence_witness :
    ValidateTxtFile goLib " \n\t".toList = { IsValid := false, ErrorMessage := "File is empty" } ∧
      ValidateTxtFile goLib " < ".toList =
        { IsValid := false,
          ErrorMessage := "File contains XML tags (< or >) which are not allowed in .txt files" } ∧
      ValidateTxtFile goLib "<b>abc</b>".toList =
        { IsValid := false,
          ErrorMessage := "File contains XML tags (< or >) which are not allowed in .txt files" } :=
  ⟨(C3_check_precedence goLib " \n\t".toList).1 (by decide),
    (C3_check_precedence goLib " < ".toList).2 (by decide) (by decide),
    (C3_check_precedence goLib "<b>abc</b>".toList).2 (by decide) (by decide)⟩

/-- C4: a text made only of annotation markers is rejected for having no text
characters, whatever the marker bodies contain. -/
theorem C4_only_markers (L : Lib) (bodies : List (List Char)) (hne : bodies ≠ [])
    (hb : ∀ b ∈ bodies, '\x7d' ∉ b) :
    ValidateTxtFile L (bodies.flatMap marker) =
      { IsValid := false, ErrorMessage := "File contains no text characters" } := by
  have hstrip : ∀ bs : List (List Char), (∀ b ∈ bs, '\x7d' ∉ b) →
      stripMarkers (bs.flatMap marker) = [] := by
    intro bs
    induction bs with
    | nil => intro _; rfl
    | cons b bs ih =>
      intro h
      have h1 : '\x7d' ∉ b := h b (List.mem_cons_self _ _)
      have h2 : ∀ b ∈ bs, '\x7d' ∉ b := fun x hx => h x (List.mem_cons_of_mem _ hx)
      have e : (b :: bs).flatMap marker =
          '\x7b' :: '\x7b' :: (b ++ '\x7d' :: '\x7d' :: bs.flatMap marker) := by
        simp [marker]
      rw [e, stripMarkers_marker b _ h1]
      exact ih h2
  have hnb : TrimSpace (bodies.flatMap marker) ≠ [] := by
    rw [Ne, TrimSpace_eq_nil_iff]
    intro hall
    cases bodies with
    | nil => exact hne rfl
    | cons b bs =>
      have := hall '\x7b' (by simp [marker])
      revert this
      decide
  rw [ValidateTxtFile_eq, if_neg hnb, hstrip bodies hb]
  simp [counted]

/-- Witness of C4: two markers, one of them holding markup. -/
theorem C4_only_markers_witness :
    ValidateTxtFile goLib "\x7b\x7b<b>note</b>\x7d\x7d\x7b\x7b\x7d\x7d".toList =
      { IsValid := false, ErrorMessage := "File contains no text characters" } :=
  C4_only_markers goLib ["<b>note</b>".toList, []] (by decide) (by decide)

/-- C5: the outcome is never partially filled: it is valid exactly when the message is
empty, and it is either the valid outcome or an invalid one carrying one of the four
fixed reasons. -/
theorem C5_outcome_shape (L : Lib) (text : List Char) :
    ((ValidateTxtFile L text).IsValid = true ↔ (ValidateTxtFile L text).ErrorMessage = "") ∧
    (ValidateTxtFile L text = { IsValid := true, ErrorMessage := "" } ∨
      ValidateTxtFile L text = { IsValid := false, ErrorMessage := "File is empty" } ∨
      ValidateTxtFile L text =
        { IsValid := false,
          ErrorMessage := "File contains XML tags (< or >) which are not allowed in .txt files" } ∨
      ValidateTxtFile L text =
        { IsValid := false, ErrorMessage := "File contains no text characters" } ∨
      ValidateTxtFile L text =
        { IsValid := false, ErrorMessage := "File must contain at least 50% CJK characters" }) := by
  rw [ValidateTxtFile_eq]
  split_ifs <;> simp

/-- C6: a record returned without error has a non-empty version, two non-empty
timestamps that parse as RFC 3339, and a content, the trimmed character data, that
`ValidateTxtFile` accepts; validity always carries over from a text to its trimmed form. -/
theorem C6_parsed_record_valid (L : Lib) (unmarshal : Decoder) (input c : List Char) :
    ((ParseWenFile L unmarshal input).2 = none →
      (ParseWenFile L unmarshal input).1.Ver ≠ [] ∧
      (ParseWenFile L unmarshal input).1.CreatedAt ≠ [] ∧
      (ParseWenFile L unmarshal input).1.ModifiedAt ≠ [] ∧
      L.ParseTime (ParseWenFile L unmarshal input).1.CreatedAt = true ∧
      L.ParseTime (ParseWenFile L unmarshal input).1.ModifiedAt = true ∧
      ValidateTxtFile L (ParseWenFile L unmarshal input).1.Content =
        { IsValid := true, ErrorMessage := "" }) ∧
    ((ValidateTxtFile L c).IsValid = true → (ValidateTxtFile L (TrimSpace c)).IsValid = true) := by
  constructor
  · unfold ParseWenFile
    cases unmarshal input with
    | error e => intro h; simp at h
    | ok x =>
      simp only
      split_ifs with h1 h2 h3 h4 h5 h6
      · intro h; simp at h
      · intro h; simp at h
      · intro h; simp at h
      · intro h; simp at h
      · intro h; simp at h
      · intro h; simp at h
      · intro _
        simp only [ValidateTxtFile_TrimSpace]
        refine ⟨h1, h2, h3, by simpa using h4, by simpa using h5, ?_⟩
        have hv : (ValidateTxtFile L x.Content).IsValid = true := by simpa using h6
        rcases (ValidateTxtFile_cases L x.Content) with h | h | h | h | h
        · exact h
        all_goals (rw [h] at hv; cases hv)
  · intro h
    rw [ValidateTxtFile_TrimSpace]
    exact h

/-- Witness of C6: the character data of the envelope is surrounded by blanks; the
record is returned without error and its trimmed content is valid. -/
theorem C6_parsed_record_valid_witness :
    (ParseWenFile goLib xmlUnmarshal
        ("<wenshi ver=\x221.0\x22 createdAt=\x222024-01-01T00:00:00Z\x22 " ++
          "modifiedAt=\x222024-01-01T00:00:00Z\x22> \n你好 </wenshi>").toList).2 = none ∧
    ValidateTxtFile goLib
        (ParseWenFile goLib xmlUnmarshal
          ("<wenshi ver=\x221.0\x22 createdAt=\x222024-01-01T00:00:00Z\x22 " ++
            "modifiedAt=\x222024-01-01T00:00:00Z\x22> \n你好 </wenshi>").toList).1.Content =
      { IsValid := true, ErrorMessage := "" } ∧
    (ValidateTxtFile goLib (TrimSpace " \n你好 ".toList)).IsValid = true :=
  ⟨by decide!,
    ((C6_parsed_record_valid goLib xmlUnmarshal
      ("<wenshi ver=\x221.0\x22 createdAt=\x222024-01-01T00:00:00Z\x22 " ++
        "modifiedAt=\x222024-01-01T00:00:00Z\x22> \n你好 </wenshi>").toList []).1
      (by decide!)).2.2.2.2.2,
    (C6_parsed_record_valid goLib xmlUnmarshal [] " \n你好 ".toList).2 (by decide!)⟩

/-- C7: an error from `ParseWenFile` comes with the zero record, and an error from
`SerializeWenFile` with the empty string. -/
theorem C7_no_partial_result (L : Lib) (unmarshal : Decoder) (now input c ca ma : List Char) :
    ((ParseWenFile L unmarshal input).2 ≠ none →
      (ParseWenFile L unmarshal input).1 =
        { Ver := [], CreatedAt := [], ModifiedAt := [], Content := [] }) ∧
    ((SerializeWenFile L now c ca ma).2 ≠ none → (SerializeWenFile L now c ca ma).1 = []) := by
  constructor
  · unfold ParseWenFile
    cases unmarshal input with
    | error e => intro _; rfl
    | ok x =>
      simp only
      split_ifs <;> simp
  · unfold SerializeWenFile
    simp only
    split_ifs <;> simp

/-- Witness of C7: a text that is not XML, and a content without CJK characters. -/
theorem C7_no_partial_result_witness :
    (ParseWenFile goLib xmlUnmarshal "not a wen file".toList).1 =
        { Ver := [], CreatedAt := [], ModifiedAt := [], Content := [] } ∧
      (SerializeWenFile goLib [] "hello world".toList [] []).1 = [] :=
  ⟨(C7_no_partial_result goLib xmlUnmarshal [] "not a wen file".toList [] [] []).1 (by decide!),
    (C7_no_partial_result goLib xmlUnmarshal [] [] "hello world".toList [] []).2 (by decide!)⟩

/-- C8: after a successful decode the checks run in the order ver, createdAt,
modifiedAt (presence), createdAt, modifiedAt (timestamp format), content; the first one
that fails decides the error. -/
theorem C8_parse_check_order (L : Lib) (unmarshal : Decoder) (input : List Char) (x : wenshiXML)
    (hdec : unmarshal input = .ok x) :
    (x.Ver = [] →
      ParseWenFile L unmarshal input =
        ({ Ver := [], CreatedAt := [], ModifiedAt := [], Content := [] },
          some "Invalid .wen file: missing required attribute 'ver'")) ∧
    (x.Ver ≠ [] → x.CreatedAt = [] →
      ParseWenFile L unmarshal input =
        ({ Ver := [], CreatedAt := [], ModifiedAt := [], Content := [] },
          some "Invalid .wen file: missing required attribute 'createdAt'")) ∧
    (x.Ver ≠ [] → x.CreatedAt ≠ [] → x.ModifiedAt = [] →
      ParseWenFile L unmarshal input =
        ({ Ver := [], CreatedAt := [], ModifiedAt := [], Content := [] },
          some "Invalid .wen file: missing required attribute 'modifiedAt'")) ∧
    (x.Ver ≠ [] → x.CreatedAt ≠ [] → x.ModifiedAt ≠ [] → L.ParseTime x.CreatedAt = false →
      ParseWenFile L unmarshal input =
        ({ Ver := [], CreatedAt := [], ModifiedAt := [], Content := [] },
          some "Invalid .wen file: invalid timestamp format in 'createdAt'")) ∧
    (x.Ver ≠ [] → x.CreatedAt ≠ [] → x.ModifiedAt ≠ [] → L.ParseTime x.CreatedAt = true →
      L.ParseTime x.ModifiedAt = false →
      ParseWenFile L unmarshal input =
        ({ Ver := [], CreatedAt := [], ModifiedAt := [], Content := [] },
          some "Invalid .wen file: invalid timestamp format in 'modifiedAt'")) ∧
    (x.Ver ≠ [] → x.CreatedAt ≠ [] → x.ModifiedAt ≠ [] → L.ParseTime x.CreatedAt = true →
      L.ParseTime x.ModifiedAt = true → (ValidateTxtFile L x.Content).IsValid = false →
      ParseWenFile L unmarshal input =
        ({ Ver := [], CreatedAt := [], ModifiedAt := [], Content := [] },
          some ("Invalid .wen file content: " ++ (ValidateTxtFile L x.Content).ErrorMessage))) := by
  unfold ParseWenFile
  rw [hdec]
  refine ⟨?_, ?_, ?_, ?_, ?_, ?_⟩
  · intro h1
    simp [h1]
  · intro h1 h2
    simp [h1, h2]
  · intro h1 h2 h3
    simp [h1, h2, h3]
  · intro h1 h2 h3 h4
    simp [h1, h2, h3, h4]
  · intro h1 h2 h3 h4 h5
    simp [h1, h2, h3, h4, h5]
  · intro h1 h2 h3 h4 h5 h6
    simp [h1, h2, h3, h4, h5, h6]

/-- Witness of C8: an envelope whose attributes and content are all unacceptable is
reported for its empty `ver`; with a version, for the timestamp of `createdAt`. -/
theorem C8_parse_check_order_witness :
    ParseWenFile goLib xmlUnmarshal
        ("<wenshi ver=\x22\x22 createdAt=\x22\x22 modifiedAt=\x22soon\x22>" ++
          "hello</wenshi>").toList =
      ({ Ver := [], CreatedAt := [], ModifiedAt := [], Content := [] },
        some "Invalid .wen file: missing required attribute 'ver'") ∧
    ParseWenFile goLib xmlUnmarshal
        ("<wenshi ver=\x221.0\x22 createdAt=\x22yesterday\x22 modifiedAt=\x22soon\x22>" ++
          "hello</wenshi>").toList =
      ({ Ver := [], CreatedAt := [], ModifiedAt := [], Content := [] },
        some "Invalid .wen file: invalid timestamp format in 'createdAt'") :=
  ⟨(C8_parse_check_order goLib xmlUnmarshal
      ("<wenshi ver=\x22\x22 createdAt=\x22\x22 modifiedAt=\x22soon\x22>" ++
        "hello</wenshi>").toList
      { Ver := [], CreatedAt := [], ModifiedAt := "soon".toList, Content := "hello".toList }
      (by rfl)).1 (by decide),
    (C8_parse_check_order goLib xmlUnmarshal
      ("<wenshi ver=\x221.0\x22 createdAt=\x22yesterday\x22 modifiedAt=\x22soon\x22>" ++
        "hello</wenshi>").toList
      { Ver := "1.0".toList, CreatedAt := "yesterday".toList, ModifiedAt := "soon".toList,
        Content := "hello".toList }
      (by rfl)).2.2.2.1 (by decide) (by decide) (by decide) (by decide)⟩

/-- C9: `SerializeWenFile` fails with "Invalid content: " followed by the reason exactly
when validation of the content as passed in fails with that reason, whatever the
timestamps are; with valid content the only failures are the two timestamp messages,
`createdAt` being examined first. -/
theorem C9_serialize_content_first (L : Lib) (now c ca ma : List Char) :
    (∀ r : String, SerializeWenFile L now c ca ma = ([], some ("Invalid content: " ++ r)) ↔
      ((ValidateTxtFile L c).IsValid = false ∧ (ValidateTxtFile L c).ErrorMessage = r)) ∧
    ((ValidateTxtFile L c).IsValid = true →
      (L.ParseTime (if ca = [] then now else ca) = false →
        SerializeWenFile L now c ca ma = ([], some "Invalid timestamp format in 'createdAt'")) ∧
      (L.ParseTime (if ca = [] then now else ca) = true →
        L.ParseTime (if ma = [] then now else ma) = false →
        SerializeWenFile L now c ca ma = ([], some "Invalid timestamp format in 'modifiedAt'")) ∧
      (L.ParseTime (if ca = [] then now else ca) = true →
        L.ParseTime (if ma = [] then now else ma) = true →
        (SerializeWenFile L now c ca ma).2 = none)) ∧
    SerializeWenFile L now "hello world".toList ca ma =
      ([], some "Invalid content: File must contain at least 50% CJK characters") := by
  refine ⟨?_, ?_, ?_⟩
  · intro r
    unfold SerializeWenFile
    simp only
    cases hv : (ValidateTxtFile L c).IsValid with
    | false =>
      simp only [Bool.not_false, if_true, Prod.mk.injEq, true_and, Option.some.injEq]
      constructor
      · intro h
        exact str_append_cancel _ _ _ h
      · intro h
        rw [h]
    | true =>
      simp only [Bool.not_true, Bool.false_eq_true, if_false]
      have hc : ¬ (([] : List Char), some "Invalid timestamp format in 'createdAt'") =
          ([], some ("Invalid content: " ++ r)) := by
        intro h
        simp only [Prod.mk.injEq, true_and, Option.some.injEq] at h
        exact createdAt_msg_ne r h
      have hm : ¬ (([] : List Char), some "Invalid timestamp format in 'modifiedAt'") =
          ([], some ("Invalid content: " ++ r)) := by
        intro h
        simp only [Prod.mk.injEq, true_and, Option.some.injEq] at h
        exact modifiedAt_msg_ne r h
      split_ifs <;> simp [hc, hm]
  · intro hv
    unfold SerializeWenFile
    simp only [hv]
    refine ⟨?_, ?_, ?_⟩
    · intro h1
      simp [h1]
    · intro h1 h2
      simp [h1, h2]
    · intro h1 h2
      simp [h1, h2]
  · have hv : ValidateTxtFile L "hello world".toList =
        { IsValid := false, ErrorMessage := "File must contain at least 50% CJK characters" } := by
      rw [ValidateTxtFile_eq]
      have h1 : TrimSpace "hello world".toList ≠ [] := by decide
      have h2 : stripMarkers "hello world".toList = "hello world".toList := by decide
      have h3 : counted L "hello world".toList = "helloworld".toList := by
        have h4 : counted L "hello world".toList =
            "hello world".toList.filter (fun r => !(IsSpace r || latin1Punct r.toNat)) := by
          unfold counted
          apply List.filter_congr
          intro r hr
          have h5 : ∀ r ∈ "hello world".toList, r.toNat ≤ 0xFF := by decide
          simp only [IsPunct, h5 r hr, if_true]
        rw [h4]
        decide
      rw [if_neg h1, h2, h3]
      decide
    unfold SerializeWenFile
    simp only [hv]
    simp

/-- Witness of C9: an invalid content with invalid timestamps is reported for its
content, and a valid content with two invalid timestamps for `createdAt`. -/
theorem C9_serialize_content_first_witness :
    SerializeWenFile goLib [] "hello world".toList "bad".toList "worse".toList =
        ([], some "Invalid content: File must contain at least 50% CJK characters") ∧
      SerializeWenFile goLib [] "你好世界".toList "bad".toList "worse".toList =
        ([], some "Invalid timestamp format in 'createdAt'") :=
  ⟨(C9_serialize_content_first goLib [] [] "bad".toList "worse".toList).2.2,
    ((C9_serialize_content_first goLib [] "你好世界".toList "bad".toList "worse".toList).2.1
      (by decide!)).1 (by decide)⟩

/-- C10: with valid content and two non-empty RFC 3339 timestamps the output is exactly
the XML declaration, a line feed and the `wenshi` element with the attributes `ver`
(the literal 1.0), `createdAt`, `modifiedAt` in this order, each value escaped character
by character, around the escaped newline-normalised content; nothing else is added. -/
theorem C10_envelope_exact (L : Lib) (now c ca ma : List Char)
    (hv : (ValidateTxtFile L c).IsValid = true) (hca : ca ≠ []) (hma : ma ≠ [])
    (hpc : L.ParseTime ca = true) (hpm : L.ParseTime ma = true) :
    SerializeWenFile L now c ca ma =
      ("<?xml version=\x221.0\x22 encoding=\x22UTF-8\x22?>".toList ++ "\n".toList ++
        "<wenshi ver=\x221.0\x22 createdAt=\x22".toList ++ escapeChars true ca ++
        "\x22 modifiedAt=\x22".toList ++ escapeChars true ma ++ "\x22>".toList ++
        escapeChars false (normalizeNewlines c) ++ "</wenshi>".toList, none) := by
  rw [SerializeWenFile_ok L now c ca ma hv hca hma hpc hpm]
  simp [sprintfEnvelope]

/-- Witness of C10: a content with a line feed, an ampersand and an annotation. -/
theorem C10_envelope_exact_witness :
    (ValidateTxtFile goLib "你&好\n\x7b\x7b<i>\x7d\x7d".toList).IsValid = true ∧
    SerializeWenFile goLib [] "你&好\n\x7b\x7b<i>\x7d\x7d".toList "2024-01-15T10:30:00Z".toList
        "2024-01-15T10:30:00+08:00".toList =
      ("<?xml version=\x221.0\x22 encoding=\x22UTF-8\x22?>".toList ++ "\n".toList ++
        "<wenshi ver=\x221.0\x22 createdAt=\x22".toList ++
        escapeChars true "2024-01-15T10:30:00Z".toList ++
        "\x22 modifiedAt=\x22".toList ++ escapeChars true "2024-01-15T10:30:00+08:00".toList ++
        "\x22>".toList ++
        escapeChars false (normalizeNewlines "你&好\n\x7b\x7b<i>\x7d\x7d".toList) ++
        "</wenshi>".toList, none) :=
  ⟨by decide!,
    C10_envelope_exact goLib [] "你&好\n\x7b\x7b<i>\x7d\x7d".toList "2024-01-15T10:30:00Z".toList
      "2024-01-15T10:30:00+08:00".toList (by decide!) (by decide) (by decide) (by decide)
      (by decide)⟩

/-! ## Uniform line ends -/

theorem crlfLineEnds_eq_flatMap (c : List Char) :
    crlfLineEnds false c =
      (toLF c).flatMap (fun x => if x = '\n' then ['\r', '\n'] else [x]) := by
  induction c using toLF_cases with
  | hnil => rw [toLF_nil]; rfl
  | hcrlf s ih =>
    rw [toLF_crlf]
    simp only [crlfLineEnds, if_true, List.flatMap_cons, List.cons_append, List.nil_append]
    rw [ih, if_neg (by decide)]
  | hcr s hh ih =>
    rw [toLF_cr s hh]
    simp only [List.flatMap_cons, if_true, List.cons_append, List.nil_append]
    rw [← ih]
    cases s with
    | nil => simp [crlfLineEnds]
    | cons d ds =>
      have hd : d ≠ '\n' := by
        intro e
        exact hh (by simp [e])
      by_cases hdr : d = '\r'
      · simp [crlfLineEnds, hdr]
      · simp [crlfLineEnds, hd, hdr]
  | hother c s hc ih =>
    rw [toLF_other c s hc]
    simp only [List.flatMap_cons]
    rw [← ih]
    by_cases hn : c = '\n'
    · simp [crlfLineEnds, hn]
    · simp [crlfLineEnds, hc, hn]

theorem flatMap_crlf_after_cr (z : List Char) (hz : '\r' ∉ z) :
    ∀ pre suf, z.flatMap (fun x => if x = '\n' then ['\r', '\n'] else [x]) = pre ++ '\r' :: suf →
      suf.head? = some '\n' := by
  induction z with
  | nil => intro pre suf h; simp at h
  | cons c cs ih =>
    have hc : c ≠ '\r' := fun e => hz (by simp [e])
    have ih2 := ih (fun e => hz (List.mem_cons_of_mem _ e))
    intro pre suf h
    by_cases hn : c = '\n'
    · subst hn
      simp only [List.flatMap_cons, if_true, List.cons_append, List.nil_append] at h
      cases pre with
      | nil =>
        simp only [List.nil_append, List.cons.injEq, true_and] at h
        rw [← h]; rfl
      | cons p ps =>
        simp only [List.cons_append, List.cons.injEq] at h
        cases ps with
        | nil =>
          simp only [List.nil_append, List.cons.injEq] at h
          exact absurd h.2.1 (by decide)
        | cons p2 ps2 =>
          simp only [List.cons_append, List.cons.injEq] at h
          exact ih2 ps2 suf h.2.2
    · simp only [List.flatMap_cons, hn, if_false, List.cons_append, List.nil_append] at h
      cases pre with
      | nil =>
        simp only [List.nil_append, List.cons.injEq] at h
        exact absurd h.1 hc
      | cons p ps =>
        simp only [List.cons_append, List.cons.injEq] at h
        exact ih2 ps suf h.2

theorem flatMap_crlf_before_lf (z : List Char) (hz : '\r' ∉ z) :
    ∀ pre suf, z.flatMap (fun x => if x = '\n' then ['\r', '\n'] else [x]) = pre ++ '\n' :: suf →
      pre.getLast? = some '\r' := by
  induction z with
  | nil => intro pre suf h; simp at h
  | cons c cs ih =>
    have hc : c ≠ '\r' := fun e => hz (by simp [e])
    have ih2 := ih (fun e => hz (List.mem_cons_of_mem _ e))
    intro pre suf h
    by_cases hn : c = '\n'
    · subst hn
      simp only [List.flatMap_cons, if_true, List.cons_append, List.nil_append] at h
      cases pre with
      | nil =>
        simp only [List.nil_append, List.cons.injEq] at h
        exact absurd h.1 (by decide)
      | cons p ps =>
        simp only [List.cons_append, List.cons.injEq] at h
        cases ps with
        | nil => rw [← h.1]; rfl
        | cons p2 ps2 =>
          simp only [List.cons_append, List.cons.injEq] at h
          have h3 := ih2 ps2 suf h.2.2
          cases ps2 with
          | nil => simp at h3
          | cons p3 ps3 =>
            simpa [List.getLast?_cons_cons] using h3
    · simp only [List.flatMap_cons, hn, if_false, List.cons_append, List.nil_append] at h
      cases pre with
      | nil =>
        simp only [List.nil_append, List.cons.injEq] at h
        exact absurd h.1 hn
      | cons p ps =>
        simp only [List.cons_append, List.cons.injEq] at h
        have h3 := ih2 ps suf h.2
        cases ps with
        | nil => simp at h3
        | cons p3 ps3 =>
          simpa [List.getLast?_cons_cons] using h3

/-! ## Unescaping -/

theorem unescapeAux_eq_drop (n : Nat) (s : List Char) :
    unescapeAux n s = unescapeEntities (s.drop n) := by
  induction s generalizing n with
  | nil => simp [unescapeEntities, unescapeAux]
  | cons c cs ih =>
    cases n with
    | zero => simp [unescapeEntities]
    | succ m =>
      simp only [unescapeAux, List.drop_succ_cons]
      exact ih m

theorem unescapeEntities_plain (c : Char) (s : List Char) (h : c ≠ '&') :
    unescapeEntities (c :: s) = c :: unescapeEntities s := by
  have h2 : ¬ '&' = c := fun e => h e.symm
  have he : entityAt (c :: s) = none := by
    simp [entityAt, List.isPrefixOf, h2]
  simp [unescapeEntities, unescapeAux, he]

theorem unescapeEntities_amp (s : List Char) :
    unescapeEntities ("&amp;".toList ++ s) = '&' :: unescapeEntities s := by
  have he : entityAt ("&amp;".toList ++ s) = some ('&', 5) := by
    simp [entityAt, List.isPrefixOf]
  have e : "&amp;".toList ++ s = '&' :: ("amp;".toList ++ s) := rfl
  rw [e] at he ⊢
  rw [unescapeEntities, unescapeAux, he]
  simp only
  rw [unescapeAux_eq_drop]
  rfl

theorem unescapeEntities_lt (s : List Char) :
    unescapeEntities ("&lt;".toList ++ s) = '<' :: unescapeEntities s := by
  have he : entityAt ("&lt;".toList ++ s) = some ('<', 4) := by
    simp [entityAt, List.isPrefixOf]
  have e : "&lt;".toList ++ s = '&' :: ("lt;".toList ++ s) := rfl
  rw [e] at he ⊢
  rw [unescapeEntities, unescapeAux, he]
  simp only
  rw [unescapeAux_eq_drop]
  rfl

theorem unescapeEntities_gt (s : List Char) :
    unescapeEntities ("&gt;".toList ++ s) = '>' :: unescapeEntities s := by
  have he : entityAt ("&gt;".toList ++ s) = some ('>', 4) := by
    simp [entityAt, List.isPrefixOf]
  have e : "&gt;".toList ++ s = '&' :: ("gt;".toList ++ s) := rfl
  rw [e] at he ⊢
  rw [unescapeEntities, unescapeAux, he]
  simp only
  rw [unescapeAux_eq_drop]
  rfl

theorem unescapeEntities_quot (s : List Char) :
    unescapeEntities ("&quot;".toList ++ s) = '\x22' :: unescapeEntities s := by
  have he : entityAt ("&quot;".toList ++ s) = some ('\x22', 6) := by
    simp [entityAt, List.isPrefixOf]
  have e : "&quot;".toList ++ s = '&' :: ("quot;".toList ++ s) := rfl
  rw [e] at he ⊢
  rw [unescapeEntities, unescapeAux, he]
  simp only
  rw [unescapeAux_eq_drop]
  rfl

/-- Unescaping undoes character-by-character escaping. -/
theorem unescapeEntities_escapeChars (attr : Bool) (s : List Char) :
    unescapeEntities (escapeChars attr s) = s := by
  induction s with
  | nil => rfl
  | cons c cs ih =>
    have hsplit : escapeChars attr (c :: cs) = escChar attr c ++ escapeChars attr cs := by
      simp [escapeChars]
    rw [hsplit]
    by_cases h1 : c = '&'
    · subst h1
      have e : escChar attr '&' = "&amp;".toList := by unfold escChar; simp
      rw [e, unescapeEntities_amp, ih]
    · by_cases h2 : c = '<'
      · subst h2
        have e : escChar attr '<' = "&lt;".toList := by unfold escChar; simp
        rw [e, unescapeEntities_lt, ih]
      · by_cases h3 : c = '>'
        · subst h3
          have e : escChar attr '>' = "&gt;".toList := by unfold escChar; simp
          rw [e, unescapeEntities_gt, ih]
        · by_cases h4 : attr = true ∧ c = '\x22'
          · obtain ⟨ha, hc⟩ := h4
            subst ha hc
            have e : escChar true '\x22' = "&quot;".toList := by unfold escChar; decide
            rw [e, unescapeEntities_quot, ih]
          · have e : escChar attr c = [c] := by
              unfold escChar
              simp only [h1, h2, h3, h4, if_false]
            rw [e, List.singleton_append, unescapeEntities_plain c _ h1, ih]

/-! ## The envelope in general -/

/-- The successful path of `SerializeWenFile` with the default timestamps filled in. -/
theorem SerializeWenFile_eq (L : Lib) (now c ca ma : List Char)
    (hv : (ValidateTxtFile L c).IsValid = true)
    (hpc : L.ParseTime (if ca = [] then now else ca) = true)
    (hpm : L.ParseTime (if ma = [] then now else ma) = true) :
    SerializeWenFile L now c ca ma =
      (sprintfEnvelope "1.0".toList (escapeChars true (if ca = [] then now else ca))
        (escapeChars true (if ma = [] then now else ma))
        (escapeChars false (normalizeNewlines c)), none) := by
  unfold SerializeWenFile
  simp only [hv, hpc, hpm, if_false, Bool.not_true, Bool.false_eq_true]
  rw [escapeContent_eq, escapeAttr_eq, escapeAttr_eq, escapeAttr_eq]
  have hver : escapeChars true "1.0".toList = "1.0".toList := by decide
  rw [hver]

/-- Success of `SerializeWenFile` means that all three checks passed. -/
theorem SerializeWenFile_none (L : Lib) (now c ca ma : List Char)
    (h : (SerializeWenFile L now c ca ma).2 = none) :
    (ValidateTxtFile L c).IsValid = true ∧
      L.ParseTime (if ca = [] then now else ca) = true ∧
      L.ParseTime (if ma = [] then now else ma) = true := by
  unfold SerializeWenFile at h
  simp only at h
  cases hv : (ValidateTxtFile L c).IsValid with
  | false => simp [hv] at h
  | true =>
    cases hpc : L.ParseTime (if ca = [] then now else ca) with
    | false => simp [hv, hpc] at h
    | true =>
      cases hpm : L.ParseTime (if ma = [] then now else ma) with
      | false => simp [hv, hpc, hpm] at h
      | true => exact ⟨rfl, rfl, rfl⟩

theorem escapeChars_no_angle (attr : Bool) (s : List Char) :
    '<' ∉ escapeChars attr s ∧ '>' ∉ escapeChars attr s := by
  induction s with
  | nil => simp [escapeChars]
  | cons c cs ih =>
    have hsplit : escapeChars attr (c :: cs) = escChar attr c ++ escapeChars attr cs := by
      simp [escapeChars]
    have hc : '<' ∉ escChar attr c ∧ '>' ∉ escChar attr c := by
      unfold escChar
      split_ifs with h1 h2 h3 h4
      · decide
      · decide
      · decide
      · decide
      · simp only [List.mem_singleton]
        exact ⟨fun e => h2 e.symm, fun e => h3 e.symm⟩
    rw [hsplit]
    simp only [List.mem_append, not_or]
    exact ⟨⟨hc.1, ih.1⟩, ⟨hc.2, ih.2⟩⟩

theorem escapeChars_no_quote (s : List Char) : '\x22' ∉ escapeChars true s := by
  induction s with
  | nil => simp [escapeChars]
  | cons c cs ih =>
    have hsplit : escapeChars true (c :: cs) = escChar true c ++ escapeChars true cs := by
      simp [escapeChars]
    have hc : '\x22' ∉ escChar true c := by
      unfold escChar
      split_ifs with h1 h2 h3 h4
      · decide
      · decide
      · decide
      · decide
      · simp only [List.mem_singleton]
        intro e
        exact h4 ⟨rfl, e.symm⟩
    rw [hsplit]
    simp only [List.mem_append, not_or]
    exact ⟨hc, ih⟩

theorem sprintfEnvelope_count (x : Char) (ver ca ma body : List Char)
    (hver : x ∉ ver) (hca : x ∉ ca) (hma : x ∉ ma) (hbody : x ∉ body) :
    (sprintfEnvelope ver ca ma body).count x =
      ("<?xml version=\x221.0\x22 encoding=\x22UTF-8\x22?>\n<wenshi ver=\x22".toList ++
        "\x22 createdAt=\x22".toList ++ "\x22 modifiedAt=\x22".toList ++ "\x22>".toList ++
        "</wenshi>".toList).count x := by
  unfold sprintfEnvelope
  simp only [List.count_append, List.count_eq_zero_of_not_mem hver,
    List.count_eq_zero_of_not_mem hca, List.count_eq_zero_of_not_mem hma,
    List.count_eq_zero_of_not_mem hbody, Nat.add_zero]

/-! ## Stripping texts whose braces are well placed -/

theorem markerLen_some_mem (s : List Char) (k : Nat) (h : markerLen s = some k) : '\x7d' ∈ s := by
  obtain ⟨body, rest, hs, _, _⟩ := markerLen_some s k h
  rw [hs]
  simp

/-- A text without closing brace is left as it is. -/
theorem stripMarkers_of_no_close (s : List Char) (h : '\x7d' ∉ s) : stripMarkers s = s := by
  induction s with
  | nil => rfl
  | cons c cs ih =>
    have hm : markerLen (c :: cs) = none := by
      cases hk : markerLen (c :: cs) with
      | none => rfl
      | some k => exact absurd (markerLen_some_mem _ _ hk) h
    rw [stripMarkers_cons_none _ _ hm, ih (fun e => h (List.mem_cons_of_mem _ e))]

theorem joinsAux_eq_drop (lc d : Bool) (n : Nat) (s : List Char) :
    joinsAux lc d n s = joinsAux lc d 0 (s.drop n) := by
  induction s generalizing n with
  | nil => simp [joinsAux]
  | cons c cs ih =>
    cases n with
    | zero => simp
    | succ m =>
      simp only [joinsAux, List.drop_succ_cons]
      exact ih m

theorem joinsAux_keep (lc d : Bool) (c : Char) (cs : List Char)
    (h : markerLen (c :: cs) = none) :
    joinsAux lc d 0 (c :: cs) =
      ((lc && d && c == '\x7d') || joinsAux (c == '\x7d') false 0 cs) := by
  rw [joinsAux, h]

theorem joinsAux_marker (lc d : Bool) (body rest : List Char) (h : '\x7d' ∉ body) :
    joinsAux lc d 0 ('\x7b' :: '\x7b' :: (body ++ '\x7d' :: '\x7d' :: rest)) =
      joinsAux lc true 0 rest := by
  have hm := markerLen_marker body rest h
  rw [joinsAux, hm]
  simp only
  rw [joinsAux_eq_drop]
  congr 1
  simp [List.drop_append]

/-- After a kept closing brace and a deletion, the pass keeps no closing brace next
unless it joins two of them. -/
theorem head_strip_after_deletion (r : List Char) (h : joinsAux true true 0 r = false) :
    (stripMarkers r).head? ≠ some '\x7d' := by
  suffices hall : ∀ (n : Nat) (r : List Char), r.length ≤ n → joinsAux true true 0 r = false →
      (stripMarkers r).head? ≠ some '\x7d' from hall r.length r (Nat.le_refl _) h
  intro n
  induction n with
  | zero =>
    intro r hr _
    have : r = [] := List.eq_nil_of_length_eq_zero (Nat.le_zero.mp hr)
    rw [this, stripMarkers_nil]
    simp
  | succ n ih =>
    intro r hr hj
    cases r with
    | nil => rw [stripMarkers_nil]; simp
    | cons c cs =>
      cases hm : markerLen (c :: cs) with
      | none =>
        rw [joinsAux_keep _ _ _ _ hm] at hj
        rw [stripMarkers_cons_none _ _ hm]
        simp only [Bool.and_self, Bool.true_and, Bool.or_eq_false_iff] at hj
        simp only [List.head?_cons, ne_eq, Option.some.injEq]
        intro e
        rw [e] at hj
        simp at hj
      | some k =>
        obtain ⟨body, rest, hs, hbody, _⟩ := markerLen_some _ _ hm
        rw [hs] at hr hj ⊢
        rw [joinsAux_marker _ _ _ _ hbody] at hj
        rw [stripMarkers_marker _ _ hbody]
        apply ih rest _ hj
        simp only [List.length_cons, List.length_append] at hr
        omega

/-- After a kept closing brace, the pass keeps another one next only if it stands next
in the text, unless it joins two of them. -/
theorem head_strip_after_close (r : List Char) (h : joinsAux true false 0 r = false)
    (hh : (stripMarkers r).head? = some '\x7d') : r.head? = some '\x7d' := by
  cases r with
  | nil => rw [stripMarkers_nil] at hh; simp at hh
  | cons c cs =>
    cases hm : markerLen (c :: cs) with
    | none =>
      rw [stripMarkers_cons_none _ _ hm] at hh
      simpa using hh
    | some k =>
      exfalso
      obtain ⟨body, rest, hs, hbody, _⟩ := markerLen_some _ _ hm
      rw [hs] at h hh
      rw [joinsAux_marker _ _ _ _ hbody] at h
      rw [stripMarkers_marker _ _ hbody] at hh
      exact head_strip_after_deletion rest h hh

theorem markerLen_open_cons (c : Char) (r : List Char) (hc : c ≠ '\x7d') :
    markerLen ('\x7b' :: '\x7b' :: c :: r) = none ↔ markerLen ('\x7b' :: '\x7b' :: r) = none := by
  have hb : (c != '\x7d') = true := by simpa using hc
  simp only [markerLen, and_self, if_true, List.dropWhile_cons, hb, List.takeWhile_cons]
  cases r.dropWhile (fun ch => ch != '\x7d') with
  | nil => simp
  | cons x t =>
    cases t with
    | nil => simp
    | cons y t2 =>
      simp only
      split_ifs <;> simp

theorem markerLen_open_close (r : List Char) :
    markerLen ('\x7b' :: '\x7b' :: '\x7d' :: r) = none ↔ r.head? ≠ some '\x7d' := by
  cases r with
  | nil => simp [markerLen]
  | cons y t => simp [markerLen, List.dropWhile_cons]

/-- If the stripped text closes a marker opened in front of it, so does the text,
unless the pass joins two closing braces. -/
theorem closes_of_strip (r : List Char) :
    ∀ lc d, joinsAux lc d 0 r = false →
      markerLen ('\x7b' :: '\x7b' :: stripMarkers r) ≠ none →
      markerLen ('\x7b' :: '\x7b' :: r) ≠ none := by
  suffices hall : ∀ (n : Nat) (r : List Char), r.length ≤ n → ∀ lc d,
      joinsAux lc d 0 r = false → markerLen ('\x7b' :: '\x7b' :: stripMarkers r) ≠ none →
      markerLen ('\x7b' :: '\x7b' :: r) ≠ none from hall r.length r (Nat.le_refl _)
  intro n
  induction n with
  | zero =>
    intro r hr lc d _ hc
    have : r = [] := List.eq_nil_of_length_eq_zero (Nat.le_zero.mp hr)
    rw [this, stripMarkers_nil] at hc
    rw [this]
    exact hc
  | succ n ih =>
    intro r hr lc d hj hc
    cases r with
    | nil => rw [stripMarkers_nil] at hc; exact hc
    | cons c cs =>
      cases hm : markerLen (c :: cs) with
      | none =>
        rw [joinsAux_keep _ _ _ _ hm] at hj
        rw [stripMarkers_cons_none _ _ hm] at hc
        have hj2 : joinsAux (c == '\x7d') false 0 cs = false := by
          simp only [Bool.or_eq_false_iff] at hj
          exact hj.2
        by_cases hcc : c = '\x7d'
        · subst hcc
          rw [Ne, markerLen_open_close] at hc ⊢
          have h1 : (stripMarkers cs).head? = some '\x7d' := by
            by_contra e
            exact hc e
          have h2 := head_strip_after_close cs (by simpa using hj2) h1
          intro e
          exact e h2
        · rw [Ne, markerLen_open_cons c _ hcc] at hc ⊢
          exact ih cs (by simpa using hr) _ _ hj2 hc
      | some k =>
        obtain ⟨body, rest, hs, hbody, _⟩ := markerLen_some _ _ hm
        rw [hs]
        have hb2 : '\x7d' ∉ '\x7b' :: '\x7b' :: body := by
          simp only [List.mem_cons, not_or]
          exact ⟨by decide, by decide, hbody⟩
        have := markerLen_marker ('\x7b' :: '\x7b' :: body) rest hb2
        simp only [List.cons_append] at this
        rw [this]
        simp

/-- Unless the pass joins two closing braces, nothing in the stripped text is matched. -/
theorem markerLen_suffix_strip (t : List Char) :
    ∀ lc d, joinsAux lc d 0 t = false →
      ∀ u, u <:+ stripMarkers t → markerLen u = none := by
  suffices hall : ∀ (n : Nat) (t : List Char), t.length ≤ n → ∀ lc d,
      joinsAux lc d 0 t = false → ∀ u, u <:+ stripMarkers t → markerLen u = none from
    hall t.length t (Nat.le_refl _)
  intro n
  induction n with
  | zero =>
    intro t ht lc d _ u hu
    have : t = [] := List.eq_nil_of_length_eq_zero (Nat.le_zero.mp ht)
    rw [this, stripMarkers_nil] at hu
    rw [List.suffix_nil.mp hu]
    rfl
  | succ n ih =>
    intro t ht lc d hj u hu
    cases t with
    | nil =>
      rw [stripMarkers_nil] at hu
      rw [List.suffix_nil.mp hu]
      rfl
    | cons c cs =>
      cases hm : markerLen (c :: cs) with
      | some k =>
        obtain ⟨body, rest, hs, hbody, _⟩ := markerLen_some _ _ hm
        rw [hs] at ht hj hu
        rw [joinsAux_marker _ _ _ _ hbody] at hj
        rw [stripMarkers_marker _ _ hbody] at hu
        apply ih rest _ _ _ hj u hu
        simp only [List.length_cons, List.length_append] at ht
        omega
      | none =>
        rw [joinsAux_keep _ _ _ _ hm] at hj
        rw [stripMarkers_cons_none _ _ hm] at hu
        have hj2 : joinsAux (c == '\x7d') false 0 cs = false := by
          simp only [Bool.or_eq_false_iff] at hj
          exact hj.2
        have hcs : cs.length ≤ n := by simpa using ht
        rcases List.suffix_cons_iff.mp hu with h1 | h1
        · rw [h1]
          by_cases hc : c = '\x7b'
          · subst hc
            cases cs with
            | nil => rw [stripMarkers_nil]; rfl
            | cons c2 cs2 =>
              cases hm2 : markerLen (c2 :: cs2) with
              | some k2 =>
                exfalso
                obtain ⟨body, rest, hs, hbody, _⟩ := markerLen_some _ _ hm2
                rw [hs] at hm
                have hb2 : '\x7d' ∉ '\x7b' :: body := by
                  simp only [List.mem_cons, not_or]
                  exact ⟨by decide, hbody⟩
                have := markerLen_marker ('\x7b' :: body) rest hb2
                simp only [List.cons_append] at this
                rw [this] at hm
                cases hm
              | none =>
                rw [stripMarkers_cons_none _ _ hm2]
                by_cases hc2 : c2 = '\x7b'
                · subst hc2
                  rw [joinsAux_keep _ _ _ _ hm2] at hj2
                  have hj3 : joinsAux ('\x7b' == '\x7d') false 0 cs2 = false := by
                    simp only [Bool.or_eq_false_iff] at hj2
                    exact hj2.2
                  by_contra e
                  exact closes_of_strip cs2 _ _ hj3 e hm
                · simp [markerLen, hc2]
          · exact markerLen_ne_open _ _ hc
        · exact ih cs hcs _ _ hj2 u h1

/-- A text in which nothing is matched at any place is left as it is. -/
theorem stripMarkers_of_no_match (o : List Char) (h : ∀ u, u <:+ o → markerLen u = none) :
    stripMarkers o = o := by
  induction o with
  | nil => rfl
  | cons c cs ih =>
    rw [stripMarkers_cons_none _ _ (h _ (List.suffix_refl _)),
      ih (fun u hu => h u (List.suffix_cons_iff.mpr (Or.inr hu)))]

/-! ## The claims, continued -/

/-- C11: in the newline-normalised content every CR is immediately followed by an LF
and every LF immediately preceded by a CR, and the result is the content with each line
break (a CRLF as one break, otherwise each CR and each LF) written as one CRLF and every
other character copied in order. -/
theorem C11_uniform_crlf (c : List Char) :
    (∀ pre suf, normalizeNewlines c = pre ++ '\r' :: suf → suf.head? = some '\n') ∧
    (∀ pre suf, normalizeNewlines c = pre ++ '\n' :: suf → pre.getLast? = some '\r') ∧
    normalizeNewlines c = crlfLineEnds false c ∧
    normalizeNewlines "a\r\n\rb\n\n\rc".toList = "a\r\n\r\nb\r\n\r\n\r\nc".toList := by
  refine ⟨?_, ?_, ?_, by decide⟩
  · rw [normalizeNewlines_eq]
    exact flatMap_crlf_after_cr _ (toLF_no_cr c)
  · rw [normalizeNewlines_eq]
    exact flatMap_crlf_before_lf _ (toLF_no_cr c)
  · rw [normalizeNewlines_eq, crlfLineEnds_eq_flatMap]

/-- C12: unescaping the five predefined entities in one pass undoes the escaping that
`SerializeWenFile` applies to the content, and the escaping of attribute values as well;
a text that already holds entity-like sequences comes back unchanged, not unescaped
twice. -/
theorem C12_escaping_reversible (s : List Char) :
    unescapeEntities (escapeContent s) = s ∧
    unescapeEntities (escapeAttr s) = s ∧
    (escapeContent "&lt;".toList = "&amp;lt;".toList ∧
      unescapeEntities (escapeContent "&lt;".toList) = "&lt;".toList) ∧
    (escapeContent "&amp;amp;".toList = "&amp;amp;amp;".toList ∧
      unescapeEntities (escapeContent "&amp;amp;".toList) = "&amp;amp;".toList) ∧
    (escapeAttr "a<\x22b\x22>&quot;".toList = "a&lt;&quot;b&quot;&gt;&amp;quot;".toList ∧
      unescapeEntities (escapeAttr "a<\x22b\x22>&quot;".toList) = "a<\x22b\x22>&quot;".toList) := by
  refine ⟨?_, ?_, by decide, by decide, by decide⟩
  · rw [escapeContent_eq, unescapeEntities_escapeChars]
  · rw [escapeAttr_eq, unescapeEntities_escapeChars]

/-- C13: with `now` the clock reading, the envelope of a valid content carries in
`createdAt` the argument when it is not empty and `now` when it is, and independently
the same for `modifiedAt`; a non-empty timestamp that parses is never replaced. -/
theorem C13_default_timestamps (L : Lib) (now c ca ma : List Char)
    (hv : (ValidateTxtFile L c).IsValid = true)
    (hpc : L.ParseTime (if ca = [] then now else ca) = true)
    (hpm : L.ParseTime (if ma = [] then now else ma) = true) :
    SerializeWenFile L now c ca ma =
      ("<?xml version=\x221.0\x22 encoding=\x22UTF-8\x22?>".toList ++ "\n".toList ++
        "<wenshi ver=\x221.0\x22 createdAt=\x22".toList ++
        escapeChars true (if ca = [] then now else ca) ++
        "\x22 modifiedAt=\x22".toList ++ escapeChars true (if ma = [] then now else ma) ++
        "\x22>".toList ++ escapeChars false (normalizeNewlines c) ++ "</wenshi>".toList, none) := by
  rw [SerializeWenFile_eq L now c ca ma hv hpc hpm]
  simp [sprintfEnvelope]

/-- Witness of C13: only `createdAt` is left empty; it receives the clock reading while
the supplied `modifiedAt` is kept. -/
theorem C13_default_timestamps_witness :
    SerializeWenFile goLib "2026-11-04T09:00:00Z".toList "你好".toList []
        "2024-01-15T10:30:00+08:00".toList =
      ("<?xml version=\x221.0\x22 encoding=\x22UTF-8\x22?>".toList ++ "\n".toList ++
        "<wenshi ver=\x221.0\x22 createdAt=\x22".toList ++
        escapeChars true
          (if ([] : List Char) = [] then "2026-11-04T09:00:00Z".toList else []) ++
        "\x22 modifiedAt=\x22".toList ++
        escapeChars true
          (if "2024-01-15T10:30:00+08:00".toList = [] then "2026-11-04T09:00:00Z".toList
            else "2024-01-15T10:30:00+08:00".toList) ++
        "\x22>".toList ++ escapeChars false (normalizeNewlines "你好".toList) ++
        "</wenshi>".toList, none) ∧
    SerializeWenFile goLib "2026-11-04T09:00:00Z".toList "你好".toList []
        "2024-01-15T10:30:00+08:00".toList =
      (("<?xml version=\x221.0\x22 encoding=\x22UTF-8\x22?>\n<wenshi ver=\x221.0\x22 " ++
        "createdAt=\x222026-11-04T09:00:00Z\x22 modifiedAt=\x222024-01-15T10:30:00+08:00\x22>" ++
        "你好</wenshi>").toList, none) :=
  ⟨C13_default_timestamps goLib "2026-11-04T09:00:00Z".toList "你好".toList []
      "2024-01-15T10:30:00+08:00".toList (by decide!) (by decide) (by decide),
    by decide!⟩

/-- C14: a marker appended to a brace-free, non-blank text does not change the outcome
of validation, whatever its body holds. -/
theorem C14_marker_ignored (L : Lib) (t b : List Char)
    (ht : ∀ x ∈ t, x ≠ '\x7b' ∧ x ≠ '\x7d') (hne : TrimSpace t ≠ []) (hb : '\x7d' ∉ b) :
    ValidateTxtFile L (t ++ marker b) = ValidateTxtFile L t := by
  have h1 : stripMarkers (t ++ marker b) = t := by
    rw [stripMarkers_leading t _ (fun x hx => (ht x hx).1)]
    have e : marker b = '\x7b' :: '\x7b' :: (b ++ '\x7d' :: '\x7d' :: []) := by
      simp [marker]
    rw [e, stripMarkers_marker b [] hb, stripMarkers_nil, List.append_nil]
  have h2 : stripMarkers t = t :=
    stripMarkers_of_no_close t (fun e => (ht _ e).2 rfl)
  have h3 : TrimSpace (t ++ marker b) ≠ [] := by
    intro e
    apply hne
    rw [TrimSpace_eq_nil_iff] at e ⊢
    intro x hx
    exact e x (List.mem_append_left _ hx)
  rw [ValidateTxtFile_eq, ValidateTxtFile_eq L t, h1, h2, if_neg h3, if_neg hne]

/-- Witness of C14: a marker holding markup and Latin letters after a CJK text. -/
theorem C14_marker_ignored_witness :
    ValidateTxtFile goLib ("你好,世界".toList ++ marker "<b>bold</b> note".toList) =
      ValidateTxtFile goLib "你好,世界".toList :=
  C14_marker_ignored goLib "你好,世界".toList "<b>bold</b> note".toList (by decide) (by decide)
    (by decide)

/-- C15 (amended): for every text on which the pass does not bring two closing braces
together (it never keeps a closing brace, deletes one or more matches right after it and
then keeps another closing brace), the stripped text has no substring that is a marker,
and stripping it again changes nothing. -/
theorem C15_complete_stripping_amended (t : List Char) (h : joinsClose t = false) :
    (∀ pre body suf, '\x7d' ∉ body → stripMarkers t ≠ pre ++ marker body ++ suf) ∧
    stripMarkers (stripMarkers t) = stripMarkers t := by
  have hnone := markerLen_suffix_strip t false false h
  refine ⟨?_, stripMarkers_of_no_match _ hnone⟩
  intro pre body suf hbody e
  have hsuf : marker body ++ suf <:+ stripMarkers t := ⟨pre, by rw [e, List.append_assoc]⟩
  have h1 := hnone _ hsuf
  have h2 : marker body ++ suf = '\x7b' :: '\x7b' :: (body ++ '\x7d' :: '\x7d' :: suf) := by
    simp [marker]
  rw [h2, markerLen_marker body suf hbody] at h1
  cases h1

/-- Witness of C15 (amended): texts with stray braces around their markers, among them
a closing brace right after a deleted match; the text of the counterexample is the kind
that the condition excludes. -/
theorem C15_complete_stripping_amended_witness :
    (joinsClose "a\x7db\x7b\x7bc\x7d\x7d".toList = false ∧
      stripMarkers (stripMarkers "a\x7db\x7b\x7bc\x7d\x7d".toList) =
        stripMarkers "a\x7db\x7b\x7bc\x7d\x7d".toList) ∧
    (joinsClose "你\x7b\x7b\x7ba\x7bb\x7d\x7d\x7d好\x7d\x7d\x7b\x7b\x7d\x7d。\x7b\x7b".toList = false ∧
      stripMarkers
          (stripMarkers "你\x7b\x7b\x7ba\x7bb\x7d\x7d\x7d好\x7d\x7d\x7b\x7b\x7d\x7d。\x7b\x7b".toList) =
        stripMarkers "你\x7b\x7b\x7ba\x7bb\x7d\x7d\x7d好\x7d\x7d\x7b\x7b\x7d\x7d。\x7b\x7b".toList) ∧
    joinsClose "\x7b\x7ba\x7d\x7b\x7bb\x7d\x7d\x7d".toList = true :=
  ⟨⟨by decide, (C15_complete_stripping_amended "a\x7db\x7b\x7bc\x7d\x7d".toList (by decide)).2⟩,
    ⟨by decide,
      (C15_complete_stripping_amended
        "你\x7b\x7b\x7ba\x7bb\x7d\x7d\x7d好\x7d\x7d\x7b\x7b\x7d\x7d。\x7b\x7b".toList (by decide)).2⟩,
    by decide⟩

/-- Counterexample to C15 as stated: in the text of a closing brace between two
markers, the second marker is the only match; deleting it leaves a marker, which a
second stripping deletes. -/
theorem C15_complete_stripping_counterexample :
    stripMarkers "\x7b\x7ba\x7d\x7b\x7bb\x7d\x7d\x7d".toList = marker "a".toList ∧
      stripMarkers (stripMarkers "\x7b\x7ba\x7d\x7b\x7bb\x7d\x7d\x7d".toList) ≠
        stripMarkers "\x7b\x7ba\x7d\x7b\x7bb\x7d\x7d\x7d".toList := by
  decide

/-- C16: whenever `SerializeWenFile` succeeds its output holds exactly three `<` and
exactly three `>`, those of the declaration, the start tag and the end tag, and the
escaped `createdAt` and `modifiedAt` values hold no double quote. -/
theorem C16_no_injection (L : Lib) (now c ca ma : List Char)
    (hok : (SerializeWenFile L now c ca ma).2 = none) :
    (SerializeWenFile L now c ca ma).1.count '<' = 3 ∧
    (SerializeWenFile L now c ca ma).1.count '>' = 3 ∧
    '\x22' ∉ escapeAttr (if ca = [] then now else ca) ∧
    '\x22' ∉ escapeAttr (if ma = [] then now else ma) := by
  obtain ⟨hv, hpc, hpm⟩ := SerializeWenFile_none L now c ca ma hok
  rw [SerializeWenFile_eq L now c ca ma hv hpc hpm]
  refine ⟨?_, ?_, ?_, ?_⟩
  · rw [sprintfEnvelope_count '<' _ _ _ _ (by decide) (escapeChars_no_angle _ _).1
      (escapeChars_no_angle _ _).1 (escapeChars_no_angle _ _).1]
    decide
  · rw [sprintfEnvelope_count '>' _ _ _ _ (by decide) (escapeChars_no_angle _ _).2
      (escapeChars_no_angle _ _).2 (escapeChars_no_angle _ _).2]
    decide
  · rw [escapeAttr_eq]
    exact escapeChars_no_quote _
  · rw [escapeAttr_eq]
    exact escapeChars_no_quote _

/-- Witness of C16: a content whose annotation tries to close the element, and a
`modifiedAt` left to the clock. -/
theorem C16_no_injection_witness :
    (SerializeWenFile goLib "2026-11-04T09:00:00Z".toList
        "你好\x7b\x7b</wenshi><x a=\x22b\x22>\x7d\x7d".toList "2024-01-15T10:30:00Z".toList
        []).2 = none ∧
    (SerializeWenFile goLib "2026-11-04T09:00:00Z".toList
        "你好\x7b\x7b</wenshi><x a=\x22b\x22>\x7d\x7d".toList "2024-01-15T10:30:00Z".toList
        []).1.count '<' = 3 :=
  ⟨by decide!,
    (C16_no_injection goLib "2026-11-04T09:00:00Z".toList
      "你好\x7b\x7b</wenshi><x a=\x22b\x22>\x7d\x7d".toList "2024-01-15T10:30:00Z".toList []
      (by decide!)).1⟩

/-- C17: with both timestamp arguments empty the envelope of a valid content carries
the one clock reading, identically, in `createdAt` and in `modifiedAt`. -/
theorem C17_single_instant (L : Lib) (now c : List Char)
    (hv : (ValidateTxtFile L c).IsValid = true) (hnow : L.ParseTime now = true) :
    SerializeWenFile L now c [] [] =
      ("<?xml version=\x221.0\x22 encoding=\x22UTF-8\x22?>".toList ++ "\n".toList ++
        "<wenshi ver=\x221.0\x22 createdAt=\x22".toList ++ escapeChars true now ++
        "\x22 modifiedAt=\x22".toList ++ escapeChars true now ++
        "\x22>".toList ++ escapeChars false (normalizeNewlines c) ++ "</wenshi>".toList, none) := by
  rw [SerializeWenFile_eq L now c [] [] hv (by simpa using hnow) (by simpa using hnow)]
  simp [sprintfEnvelope]

/-- Witness of C17: the scenario of the specification, four CJK characters and no
timestamps. -/
theorem C17_single_instant_witness :
    SerializeWenFile goLib "2026-11-04T09:00:00Z".toList "你好世界".toList [] [] =
      ("<?xml version=\x221.0\x22 encoding=\x22UTF-8\x22?>".toList ++ "\n".toList ++
        "<wenshi ver=\x221.0\x22 createdAt=\x22".toList ++
        escapeChars true "2026-11-04T09:00:00Z".toList ++
        "\x22 modifiedAt=\x22".toList ++ escapeChars true "2026-11-04T09:00:00Z".toList ++
        "\x22>".toList ++ escapeChars false (normalizeNewlines "你好世界".toList) ++
        "</wenshi>".toList, none) :=
  C17_single_instant goLib "2026-11-04T09:00:00Z".toList "你好世界".toList (by decide!)
    (by decide)

end Wenshi
